import Mathlib

/-!
# Verification of the Midas nowcasting core

A shallow embedding, in Lean 4, of the data-availability / forecast-combination
core of the `midas_nowcasting` package, together with theorems settling the
frozen claims about its specification.

Conventions of the embedding:
* Python floats are modelled by `ℚ` (exact arithmetic); IEEE infinities and
  NaN are modelled by `Option` (`none` = non-finite) where the code produces
  or branches on them.
* pandas `Series` are modelled by lists of (index, value) pairs; a pandas
  index that may be positional (integers) or label-based (strings) is
  modelled by the sum type `SIdx`.
* Python dates are passed as explicit `(year, month, day)` integers.
* Fallible code returns `Except String _`; the error string names the Python
  exception raised on that path.
* External library calls (`pymidas.Umidas`, `sklearn.Ridge`) are modelled by
  oracle parameters: the claims under verification quantify over all possible
  outputs of those calls, which the repository treats as black boxes.
-/

namespace Midas

/-! ## Release calendar (`data_handling/data_calendar.py`) -/

/-- A release schedule entry, as read from the calendars' Python dicts by
`schedule.get('week')` / `schedule.get('day')` in
`DataCalendar.get_available_indicators`: either field may be absent. -/
structure ReleaseRule where
  week : Option ℤ
  day : Option ℤ
  deriving DecidableEq, Repr

/-- `week_of_month = (reference_date.day - 1) // 7 + 1`
(data_calendar.py line 52; Python `//` is floor division). -/
def weekOfMonth (day : ℤ) : ℤ := (day - 1).fdiv 7 + 1

/-- The availability test applied to one schedule entry
(data_calendar.py lines 62-68): with both `week` and `day` present the
indicator is available iff `week_of_month > week` or
(`week_of_month == week` and `reference_date.day >= day`); with only `day`
present iff `reference_date.day >= day`; with `day` absent the entry is
silently skipped (no branch appends it). -/
def ruleAllows (wom refDay : ℤ) (r : ReleaseRule) : Bool :=
  match r.week, r.day with
  | some w, some d => decide (wom > w) || (decide (wom = w) && decide (refDay ≥ d))
  | none, some d => decide (refDay ≥ d)
  | _, none => false

/-- `DataCalendar.get_available_indicators` restricted to the week/day and
day-only branches (data_calendar.py lines 35-68): iterate over the release
dict in insertion order and append each indicator whose schedule test passes.
(The US loop, lines 70-97, applies the identical test to its week/day and
day-only entries; the `day == -1 and week == 4` relative branch is not
involved in any rule considered here, and entries with no `day` are skipped
by both loops alike.) -/
def getAvailableIndicators (rules : List (String × ReleaseRule)) (refDay : ℤ) :
    List String :=
  let wom := weekOfMonth refDay
  (rules.filter (fun p => ruleAllows wom refDay p.2)).map Prod.fst

/-- The availability query with its Python error channel made explicit: the
only `raise` in `get_available_indicators` is for a reference date that is
neither a `datetime` nor a parseable string (lines 40-46), which the typed
embedding excludes; no rule shape reaches any `raise`, so every call returns
normally. -/
def getAvailableIndicatorsE (rules : List (String × ReleaseRule)) (refDay : ℤ) :
    Except String (List String) :=
  Except.ok (getAvailableIndicators rules refDay)

/-! ## Quarter padding (`models/umidas.py`, `UMIDASModel.fit` lines 33-54) -/

/-- The quarter-padding step of `UMIDASModel.fit`: with
`months_to_pad = 2 - month_in_quarter`, append that many NaN observations
after the last timestamp of `X` at monthly frequency (timestamps are month
indices here; `pd.date_range(start=last+1month, periods=months_to_pad,
freq='ME')`).  An empty `X` is returned unchanged (the code only prints a
warning).  Values are `Option ℚ` with `none` for NaN. -/
def padToQuarter (X : List (ℕ × Option ℚ)) (monthInQuarter : ℕ) :
    List (ℕ × Option ℚ) :=
  let monthsToPad := 2 - monthInQuarter
  match X.getLast? with
  | some lastObs =>
      if monthsToPad > 0 then
        X ++ (List.range monthsToPad).map (fun i => (lastObs.1 + 1 + i, none))
      else X
  | none => X

/-! ## GDP management (`data_handling/gdp_management.py`) -/

/-- `GDPData`: a quarterly history (pairs of quarter index and value, where a
quarter index is `year * 4 + quarter_of_year`; `__init__` sorts the series)
plus an optional provisional forecast for the latest not-yet-released
quarter. -/
structure GDPData where
  historicalGdp : List (ℤ × ℚ)
  lastForecast : Option ℚ

/-- The quarter index of a reference date:
`pd.Timestamp(reference_date).to_period('Q')`, i.e. `year * 4 + (month-1)//3`. -/
def refQuarter (year month : ℤ) : ℤ := year * 4 + (month - 1).fdiv 3

/-- `pd.concat([gdp_series, forecast_series]).sort_index()` for a single
appended point: stable insertion of `p` into the (sorted) series by quarter
index. -/
def insertByQuarter (s : List (ℤ × ℚ)) (p : ℤ × ℚ) : List (ℤ × ℚ) :=
  match s with
  | [] => [p]
  | q :: rest => if p.1 < q.1 then p :: q :: rest else q :: insertByQuarter rest p

/-- `GDPData.get_gdp_series` (gdp_management.py lines 23-100): on a non-empty
history, when the latest stored quarter (`index.max().to_period('Q')`) is
strictly earlier than the reference date's previous quarter, a provisional
forecast was supplied, the reference date is in the first month of a quarter
(`month % 3 == 1`) and before day 25, the provisional value is appended at
the previous quarter's end-date index (unless that index is already present);
otherwise the stored series is returned as is. -/
def getGdpSeries (g : GDPData) (year month day : ℤ) : List (ℤ × ℚ) :=
  let s := g.historicalGdp
  if s.isEmpty then s
  else
    let prevQ := refQuarter year month - 1
    match (s.map Prod.fst).max?, g.lastForecast with
    | some maxQ, some f =>
        if maxQ < prevQ ∧ month % 3 = 1 ∧ day < 25 then
          if prevQ ∈ s.map Prod.fst then s else insertByQuarter s (prevQ, f)
        else s
    | _, _ => s

/-- `get_gdp_series` with the object state threaded explicitly: the method
body only reads `self.historical_gdp` (through `.copy()`) and
`self.last_forecast`; it contains no assignment to any attribute of `self`,
so the state component passes through unchanged. -/
def getGdpSeriesSt (g : GDPData) (year month day : ℤ) :
    GDPData × List (ℤ × ℚ) :=
  (g, getGdpSeries g year month day)

/-! ## Forecast history and combination (`models/evaluation.py`) -/

/-- A pandas index entry: positional (`RangeIndex` integer) or label
(indicator name).  The combiner functions return `Series` indexed one way or
the other depending on the branch taken. -/
inductive SIdx
  | num (n : ℕ)
  | str (s : String)
  deriving DecidableEq, Repr

/-- A weight mapping: the (index, weight) pairs of the returned `Series`. -/
abbrev Weights := List (SIdx × ℚ)

/-- The recurring equal-weight fallback
`pd.Series([1/num_models] * num_models, index=<positional index>)`. -/
def equalWeightsPos (n : ℕ) : Weights :=
  (List.range n).map (fun i => (SIdx.num i, 1 / (n : ℚ)))

/-- First-occurrence deduplication: a Python dict comprehension
`{ind: ... for ind in indicators}` keeps one entry per key, at the key's
first position. -/
def dedupFirst : List String → List String
  | [] => []
  | x :: xs => x :: dedupFirst (xs.filter (fun y => y ≠ x))
termination_by l => l.length
decreasing_by
  simp only [List.length_cons]
  exact Nat.lt_succ_of_le (xs.length_filter_le _)

/-- `ForecastHistory`: parallel lists of forecasts, actuals and dates for one
indicator (dates as integers). -/
structure ForecastHistory where
  indicator : String
  forecasts : List ℚ
  actuals : List ℚ
  dates : List ℤ
  deriving DecidableEq, Repr

/-- The equal-lengths invariant of `ForecastHistory`. -/
def histInv (e : ForecastHistory) : Prop :=
  e.forecasts.length = e.actuals.length ∧ e.actuals.length = e.dates.length

/-- One iteration of the `update_forecast_history` row loop (evaluation.py
lines 278-290): create a fresh empty entry if the indicator is unseen, then
append `(forecast, actual_gdp, forecast_date)` to its three lists.  The
history dict is an association list; a dict key is unique, so the map touches
exactly the one matching entry. -/
def recordForecast (h : List (String × ForecastHistory)) (row : String × ℚ)
    (actualGdp : ℚ) (forecastDate : ℤ) : List (String × ForecastHistory) :=
  (if (h.lookup row.1).isSome then h
   else h ++ [(row.1, ⟨row.1, [], [], []⟩)]).map (fun e =>
    if e.1 = row.1 then
      (e.1, ⟨e.2.indicator, e.2.forecasts ++ [row.2],
             e.2.actuals ++ [actualGdp], e.2.dates ++ [forecastDate]⟩)
    else e)

/-- `update_forecast_history(history, new_forecasts, actual_gdp,
forecast_date)` (evaluation.py lines 268-292): iterate over the rows of
`new_forecasts` (pairs of indicator and forecast; the embedding types the
two required columns, so the missing-column warning path is unreachable). -/
def updateForecastHistory (history : List (String × ForecastHistory))
    (newForecasts : List (String × ℚ)) (actualGdp : ℚ) (forecastDate : ℤ) :
    List (String × ForecastHistory) :=
  newForecasts.foldl (fun h row => recordForecast h row actualGdp forecastDate)
    history

/-! ### The `ForecastCombiner` strategies

Each strategy consumes the current round's indicator column and, where it
consults `self.history`, the values of the `ForecastHistory` performance
methods for the indicators present in the history dict.  Those method values
are supplied through an oracle `String → Option HMetrics` (`none` = the
indicator is not in `self.history`): `calculate_rmse`/`calculate_mae` return
a real square root, so their exact values at the call are taken as oracle
inputs, with `none` inside a field standing for the `np.inf` produced on an
empty history.  The claims are settled for every possible oracle value, which
covers every reachable history. -/

/-- Oracle record for one indicator present in `self.history`: the values of
`calculate_rmse(window)` / `calculate_rmse()` / `calculate_mae()` /
`calculate_directional_accuracy()` / `calculate_directional_accuracy(window)`
at the strategy's call, plus the raw `actuals` and `forecasts` lists read by
`combine_adaptive` and `combine_regression_based`.  An `Option ℚ` metric is
`none` when the Python value is `np.inf` (empty history). -/
structure HMetrics where
  rmse : Option ℚ
  mae : Option ℚ
  dirAcc : ℚ
  rmseW : Option ℚ
  dirAccW : ℚ
  actuals : List ℚ
  forecasts : List ℚ

/-- `ForecastCombiner.combine_bic` (evaluation.py lines 67-85).  On an empty
frame the fallback computes `[1/num_models] * num_models` with
`num_models = 0`, so Python raises `ZeroDivisionError`.  Otherwise: replace
non-finite criteria by `nanmax(finite) + 100` (all-non-finite → equal
weights), invert, fall back to equal weights on a zero sum, else normalize.
The result keeps the frame's positional index. -/
def combineBic (rows : List (String × Option ℚ)) : Except String Weights :=
  if rows.isEmpty then Except.error "ZeroDivisionError: division by zero"
  else
    let finiteBics := rows.filterMap Prod.snd
    match finiteBics.max? with
    | none => Except.ok (equalWeightsPos rows.length)
    | some m =>
        let bicValues := rows.map (fun r => r.2.getD (m + 100))
        let weights := bicValues.map (fun b => 1 / b)
        if weights.sum = 0 then Except.ok (equalWeightsPos rows.length)
        else Except.ok ((weights.map (fun w => w / weights.sum)).enum.map
            (fun p => (SIdx.num p.1, p.2)))

/-- `ForecastCombiner.combine_rmse` (evaluation.py lines 87-105): empty
indicator column → empty result; indicators absent from the history dict are
dropped (dict comprehension); no indicator in the history → positional equal
weights; infinite RMSEs are replaced by `nanmax(finite) + 100` (all infinite
→ every weight is NaN and the NaN-skipping sum is 0, triggering the
equal-weight fallback); otherwise invert and normalize over the present
indicators. -/
def combineRmse (names : List String) (hist : String → Option HMetrics) :
    Weights :=
  if names.isEmpty then []
  else
    let rmseValues := (dedupFirst names).filterMap
      (fun n => (hist n).map (fun h => (n, h.rmseW)))
    if rmseValues.isEmpty then equalWeightsPos names.length
    else
      let finite := rmseValues.filterMap Prod.snd
      match finite.max? with
      | none => equalWeightsPos names.length
      | some m =>
          let weights := rmseValues.map (fun v => (v.1, 1 / v.2.getD (m + 100)))
          let s := (weights.map Prod.snd).sum
          if s = 0 then equalWeightsPos names.length
          else weights.map (fun v => (SIdx.str v.1, v.2 / s))

/-- Ordering used by pandas when ranking metric values that may be `np.inf`
(`none`): infinity compares above every finite value. -/
def optLtB (a b : Option ℚ) : Bool :=
  match a, b with
  | some x, some y => decide (x < y)
  | some _, none => true
  | none, _ => false

/-- `pandas.Series.rank()` with the default `method='average'`: the rank of
`v` in `vs` is (number below) + (number tied + 1) / 2. -/
def rankAvg (vs : List (Option ℚ)) (v : Option ℚ) : ℚ :=
  ((vs.countP (fun u => optLtB u v) : ℕ) : ℚ) +
    (((vs.countP (fun u => u == v) : ℕ) : ℚ) + 1) / 2

/-- `ForecastCombiner.combine_performance_rank` (evaluation.py lines
107-142): rank the present indicators by RMSE, MAE and negated directional
accuracy, weight by the inverse of the summed ranks, normalize; empty column
→ empty result; no present indicator → positional equal weights.  (A summed
rank is at least 3, so the `replace(0, nan)` guard and the all-null fallback
are unreachable; the zero-sum fallback is kept.) -/
def combinePerformanceRank (names : List String)
    (hist : String → Option HMetrics) : Weights :=
  if names.isEmpty then []
  else
    let keys := (dedupFirst names).filterMap
      (fun n => (hist n).map (fun h => (n, h)))
    if keys.isEmpty then equalWeightsPos names.length
    else
      let rmses := keys.map (fun k => k.2.rmse)
      let maes := keys.map (fun k => k.2.mae)
      let dirs := keys.map (fun k => (some (-k.2.dirAcc) : Option ℚ))
      let combined := keys.map (fun k =>
        (k.1, rankAvg rmses k.2.rmse + rankAvg maes k.2.mae +
              rankAvg dirs (some (-k.2.dirAcc))))
      let weights := combined.map (fun c => (c.1, 1 / c.2))
      let s := (weights.map Prod.snd).sum
      if s = 0 then equalWeightsPos names.length
      else weights.map (fun c => (SIdx.str c.1, c.2 / s))

/-- Insertion into a sorted list of rationals. -/
def insertSorted (x : ℚ) : List ℚ → List ℚ
  | [] => [x]
  | y :: ys => if x ≤ y then x :: y :: ys else y :: insertSorted x ys

/-- Sorting a list of rationals (for the median). -/
def sortQ (l : List ℚ) : List ℚ := l.foldr insertSorted []

/-- `np.median`: middle element of the sorted list, or the mean of the two
middle elements (0 on an empty list, which `np.median` reports as NaN; the
call sites guard non-emptiness). -/
def npMedian (xs : List ℚ) : ℚ :=
  let sorted := sortQ xs
  let n := xs.length
  if n = 0 then 0
  else if n % 2 = 1 then sorted.getD (n / 2) 0
  else (sorted.getD (n / 2 - 1) 0 + sorted.getD (n / 2) 0) / 2

/-- `np.var` (population variance; `np.std` is its square root). -/
def npVariance (xs : List ℚ) : ℚ :=
  if xs.isEmpty then 0
  else
    let mean := xs.sum / (xs.length : ℚ)
    (xs.map (fun x => (x - mean) ^ 2)).sum / (xs.length : ℚ)

/-- Python `xs[-w:]` for `w ≥ 0`: the last `w` elements, except that `w = 0`
yields the whole list. -/
def lastWindow (w : ℕ) (xs : List ℚ) : List ℚ :=
  if w = 0 then xs else xs.drop (xs.length - w)

/-- The volatility-based weight switch of `combine_adaptive` (evaluation.py
lines 169-178): find the first indicator present in the history with at least
`window` recorded actuals; the weight pair switches to (0.5, 0.5) when its
actuals have a non-zero median and `np.std(actuals[-window:]) > np.median(actuals)`.
Since a standard deviation is non-negative, the comparison is encoded exactly
as `median < 0 ∨ variance > median²`. -/
def adaptVolSwitch (names : List String) (hist : String → Option HMetrics)
    (window : ℕ) : Bool :=
  match names.find? (fun n => match hist n with
    | some h => decide (window ≤ h.actuals.length)
    | none => false) with
  | none => false
  | some n =>
      match hist n with
      | none => false
      | some h =>
          let med := npMedian h.actuals
          decide (med ≠ 0) &&
            (decide (med < 0) ||
             decide (npVariance (lastWindow window h.actuals) > med ^ 2))

/-- `ForecastCombiner.combine_adaptive` (evaluation.py lines 144-186): empty
column → the single unit weight at positional index 0; no present indicator →
positional equal weights; otherwise score the present indicators by
`rmse_weight / rmse_safe + dir_weight * dir_acc` with the weight pair chosen
by `adaptVolSwitch`.  Zero score sum (or all-infinite windowed RMSEs, which
make every score NaN) → positional equal weights; otherwise normalize. -/
def combineAdaptive (names : List String) (hist : String → Option HMetrics)
    (window : ℕ) : Weights :=
  if names.isEmpty then [(SIdx.num 0, 1)]
  else if names.all (fun n => (hist n).isNone) then equalWeightsPos names.length
  else
    let keys := (dedupFirst names).filterMap
      (fun n => (hist n).map (fun h => (n, h)))
    let finite := keys.filterMap (fun k => k.2.rmseW)
    match finite.max? with
    | none => equalWeightsPos names.length
    | some m =>
        let rmseWt : ℚ := if adaptVolSwitch names hist window then 1/2 else 7/10
        let dirWt : ℚ := if adaptVolSwitch names hist window then 1/2 else 3/10
        let combined := keys.map (fun k =>
          (k.1, rmseWt / k.2.rmseW.getD (m + 100) + dirWt * k.2.dirAccW))
        let s := (combined.map Prod.snd).sum
        if s = 0 then equalWeightsPos names.length
        else combined.map (fun c => (SIdx.str c.1, c.2 / s))

/-- Non-strict version of the metric order, for the top-N selection. -/
def ovalLeB (a b : Option ℚ) : Bool :=
  match a, b with
  | some x, some y => decide (x ≤ y)
  | none, some _ => false
  | _, none => true

/-- The first entry carrying a minimal metric value. -/
def findMinFirst (vs : List (String × Option ℚ)) : Option (String × Option ℚ) :=
  vs.foldl (fun acc v =>
    match acc with
    | none => some v
    | some b => if ovalLeB b.2 v.2 then some b else some v) none

/-- `Series.nsmallest(n)` over the metric dict (default tie policy
`keep='first'`): repeatedly extract the first entry with the smallest value. -/
def selectTopN : ℕ → List (String × Option ℚ) → List String
  | 0, _ => []
  | n + 1, vs =>
      match findMinFirst vs with
      | none => []
      | some b => b.1 :: selectTopN n (vs.eraseP (fun v => v.1 == b.1))

/-- `ForecastCombiner.combine_thick_modeling` (evaluation.py lines 188-211):
empty column → empty result; no present indicator → positional equal weights;
otherwise give weight `1/|top|` to the `n_models` lowest-RMSE present
indicators and 0 to the rest (label index); an empty selection
(`n_models = 0`) falls back to positional equal weights. -/
def combineThickModeling (names : List String) (hist : String → Option HMetrics)
    (nModels : ℕ) : Weights :=
  if names.isEmpty then []
  else
    let rmseValues := (dedupFirst names).filterMap
      (fun n => (hist n).map (fun h => (n, h.rmse)))
    if rmseValues.isEmpty then equalWeightsPos names.length
    else
      let top := selectTopN nModels rmseValues
      if top.isEmpty then equalWeightsPos names.length
      else names.map (fun n =>
        (SIdx.str n, if n ∈ top then 1 / ((top.length : ℕ) : ℚ) else 0))

/-- `ForecastCombiner.combine_regression_based` (evaluation.py lines
213-265): collect the indicators with `window`-length history, regress the
first one's recent actuals on the stacked recent forecasts through the
external `sklearn.Ridge(alpha=1.0, fit_intercept=False)` solver (the oracle
`ridge`; `none` = the call raised), clip the coefficients at 0, normalize
(equal split if they sum to 0), scatter onto the label index with 0 for the
indicators without sufficient history, and renormalize; every failure path
returns the label-indexed equal-weight fallback. -/
def combineRegressionBased (names : List String)
    (hist : String → Option HMetrics) (window : ℕ)
    (ridge : List (List ℚ) → List ℚ → Option (List ℚ)) : Weights :=
  let fallback : Weights :=
    names.map (fun n => (SIdx.str n, 1 / ((names.length : ℕ) : ℚ)))
  if names.isEmpty then fallback
  else
    let valid := names.filterMap (fun n => (hist n).bind (fun h =>
      if window ≤ h.forecasts.length ∧ window ≤ h.actuals.length then some (n, h)
      else none))
    let xCols := valid.map (fun v => lastWindow window v.2.forecasts)
    let yList := match valid with
      | [] => []
      | v :: _ => lastWindow window v.2.actuals
    if xCols.isEmpty then fallback
    else if yList.isEmpty then fallback
    else if xCols.all (fun c => c.length == yList.length) then
      match ridge xCols yList with
      | none => fallback
      | some coefs =>
          let positive := coefs.map (fun c => max c 0)
          let s := positive.sum
          let finalVals := if s > 0 then positive.map (fun c => c / s)
                           else positive.map (fun _ => 1 / ((positive.length : ℕ) : ℚ))
          let assoc := (valid.map Prod.fst).zip finalVals
          let final := names.map (fun n => (n, (assoc.lookup n).getD 0))
          let fs := (final.map Prod.snd).sum
          if fs = 0 then fallback
          else final.map (fun p => (SIdx.str p.1, p.2 / fs))
    else fallback

/-! ## UMIDAS fit and predict (`models/umidas.py`) -/

/-- The outcome of one external `pymidas.Umidas(y, x_padded, m=3, k=x_lags,
ylag=y_lags, optim='ols').fit()` call, as read back by `UMIDASModel`:
the residual vector, the parameter count, and the forecast path that
`model.predict()` would later return (`none` when that call raises or
returns `None`).  `pymidas` is an external library (not part of this
repository), so these outcomes are oracle inputs; the claims are settled for
every possible outcome. -/
structure EstResult where
  residuals : List ℚ
  nParams : ℕ
  predictOutput : Option (List ℚ)
  deriving DecidableEq, Repr

/-- `ssr = np.sum(model.residuals**2)` (umidas.py line 79). -/
def ssrOf (rs : List ℚ) : ℚ := (rs.map (fun r => r ^ 2)).sum

/-- `if ssr <= 0: ssr = 1e-9` (line 80): the SSR floored at a small positive
epsilon. -/
def ssrFloor (s : ℚ) : ℚ := if s ≤ 0 then 1 / 1000000000 else s

/-- The criterion score of one estimated combination (line 82):
`n·ln(SSR/n) + k·ln(n)` with `n` the residual count and `k` the parameter
count. -/
noncomputable def bicScore (r : EstResult) : ℝ :=
  (r.residuals.length : ℝ) *
      Real.log ((ssrFloor (ssrOf r.residuals) : ℝ) / (r.residuals.length : ℝ)) +
    (r.nParams : ℝ) * Real.log (r.residuals.length : ℝ)

/-- The grid of `(y_lag, x_lag)` combinations in loop order (lines 60-61):
`y_lag ∈ range(max_y_lags + 1)`, `x_lag ∈ range(max_x_lags + 1)`. -/
def lagGrid (maxY maxX : ℕ) : List (ℕ × ℕ) :=
  (List.range (maxY + 1)).flatMap
    (fun y => (List.range (maxX + 1)).map (fun x => (y, x)))

/-- The combinations that estimate successfully: the external fit did not
raise (`oracle` returned a result) and produced at least one residual
(line 75 skips `n_residuals == 0`). -/
def scoredCombos (oracle : ℕ → ℕ → Option EstResult) (maxY maxX : ℕ) :
    List ((ℕ × ℕ) × EstResult) :=
  (lagGrid maxY maxX).filterMap (fun yx =>
    (oracle yx.1 yx.2).bind (fun r =>
      if r.residuals.length = 0 then none else some (yx, r)))

/-- One comparison of the `best_bic_local` fold (lines 84-86): a strictly
smaller criterion replaces the incumbent (`none` = the initial `np.inf`,
which any finite score beats). -/
noncomputable def bestStep (best : Option (ℝ × (ℕ × ℕ) × EstResult))
    (c : (ℕ × ℕ) × EstResult) : Option (ℝ × (ℕ × ℕ) × EstResult) :=
  match best with
  | none => some (bicScore c.2, c)
  | some b => if bicScore c.2 < b.1 then some (bicScore c.2, c) else best

/-- The `best_bic_local` / `best_model_local` fold over the successfully
estimated combinations. -/
noncomputable def selectBest (l : List ((ℕ × ℕ) × EstResult)) :
    Option (ℝ × (ℕ × ℕ) × EstResult) :=
  l.foldl bestStep none

/-- The model state after `UMIDASModel.fit`: the retained model (with its lag
combination) and the stored criterion (`none` = `np.inf`, kept when no
combination succeeded). -/
structure UMIDASFit where
  model_ : Option ((ℕ × ℕ) × EstResult)
  bic_ : Option ℝ

/-- `UMIDASModel.fit` (umidas.py lines 56-103): grid-search all lag
combinations, skip failures, retain the lowest-scored combination; with no
success, keep `model_ = None` and `bic_ = np.inf` and return normally. -/
noncomputable def umidasFit (oracle : ℕ → ℕ → Option EstResult)
    (maxY maxX : ℕ) : UMIDASFit :=
  match selectBest (scoredCombos oracle maxY maxX) with
  | none => ⟨none, none⟩
  | some b => ⟨some b.2, some b.1⟩

/-- `UMIDASModel.predict` (umidas.py lines 105-196): raise when unfitted or
when `month_in_quarter ∉ {0,1,2}`; return `[NaN]` on an empty input series;
otherwise slice the most recent `month_in_quarter + 1` observations into
`relevant_X_pred` — which is never passed on (dead code; the library call
`self.model_.predict()` takes no arguments and uses the fit-time data) — and
return the last element of the model's forecast path (`[NaN]` when the path
is empty, absent, or the call raises). -/
def umidasPredict (model_ : Option ((ℕ × ℕ) × EstResult)) (xPred : List ℚ)
    (monthInQuarter : ℕ) : Except String (List (Option ℚ)) :=
  match model_ with
  | none =>
      Except.error "UMIDASModel not fitted yet. Call fit() before predict()."
  | some m =>
      if monthInQuarter > 2 then
        Except.error "month_in_quarter must be 0, 1, or 2."
      else if xPred.isEmpty then Except.ok [none]
      else
        let _relevantXPred :=
          if xPred.length < monthInQuarter + 1 then xPred
          else xPred.drop (xPred.length - (monthInQuarter + 1))
        match m.2.predictOutput with
        | some ps =>
            match ps.getLast? with
            | some v => Except.ok [some v]
            | none => Except.ok [none]
        | none => Except.ok [none]

/-! ## Weekly nowcast workflow (`workflows/mexico_nowcast_workflow.py`) -/

/-- The outcome of fitting and predicting one available indicator in
`run_weekly_nowcast` (lines 49-95): the fit raised; the fit returned with no
model (`model_ is None`); or the fit succeeded with a predicted forecast
(`none` = NaN) and the model's finite criterion. -/
inductive FitOutcome
  | raises
  | noModel
  | ok (forecast : Option ℚ) (bic : ℚ)
  deriving DecidableEq, Repr

/-- The per-indicator loop of `run_weekly_nowcast` (lines 49-95): an
indicator whose fit raises is skipped (`continue`); a fit with no model
appends the row `(indicator, NaN, np.inf)`; a fitted model with a NaN
forecast is skipped with a warning; otherwise the row
`(indicator, forecast, bic)` is appended.  Rows are
`(indicator, forecast?, finite bic?)` with `none` for NaN / `np.inf`. -/
def collectResults (inds : List (String × FitOutcome)) :
    List (String × Option ℚ × Option ℚ) :=
  inds.filterMap (fun p =>
    match p.2 with
    | FitOutcome.raises => none
    | FitOutcome.noModel => some (p.1, none, none)
    | FitOutcome.ok none _ => none
    | FitOutcome.ok (some f) b => some (p.1, some f, some b))

/-- The weighting and combination block of `run_weekly_nowcast` (lines
97-138): replace non-finite criteria by NaN, fill NaN with
`nanmax(finite) + 100` (or `1 + 100` when none are finite), weight by the
normalized inverse filled criterion (equal weights when all filled criteria
are zero or the inverse sum is zero), and sum `forecast * weight` over the
rows whose forecast is not NaN (`dropna(subset=['forecast'])`); with no such
row, or no rows at all, the weighted forecast is NaN (`none`).  Returns the
weighted forecast and the details rows paired with their weights. -/
def combineResults (results : List (String × Option ℚ × Option ℚ)) :
    Option ℚ × List ((String × Option ℚ × Option ℚ) × ℚ) :=
  match results with
  | [] => (none, [])
  | _ =>
      let finiteBics := results.filterMap (fun r => r.2.2)
      let maxBic := match finiteBics.max? with
        | some m => m
        | none => 1
      let filled := results.map (fun r => (r, r.2.2.getD (maxBic + 100)))
      let weights :=
        if filled.all (fun p => p.2 == 0) then
          results.map (fun r => (r, 1 / ((results.length : ℕ) : ℚ)))
        else
          let inverse := filled.map (fun p => (p.1, 1 / p.2))
          let s := (inverse.map Prod.snd).sum
          if s = 0 then
            results.map (fun r => (r, 1 / ((results.length : ℕ) : ℚ)))
          else inverse.map (fun p => (p.1, p.2 / s))
      let valid := weights.filter (fun p => p.1.2.1.isSome)
      let wf := if valid.isEmpty then none
        else some ((valid.map (fun p => p.1.2.1.getD 0 * p.2)).sum)
      (wf, weights)

end Midas

namespace Midas

/-! ### Theorems: release calendar -/

/-- C2: for an indicator whose release rule is an explicit `{week, day}` pair,
`get_available_indicators` includes it iff `week_of_month > week` or
(`week_of_month == week` and `day >= rule day`), where
`week_of_month = (day - 1) // 7 + 1`; consequently on the 1st of a month
(`week_of_month = 1`) a rule with `week > 1` is never satisfied. -/
theorem c2_weekday_rule_availability
    (rules : List (String × ReleaseRule)) (refDay : ℤ) (name : String)
    (w d : ℤ)
    (hmem : (name, ReleaseRule.mk (some w) (some d)) ∈ rules)
    (huniq : ∀ r, (name, r) ∈ rules → r = ReleaseRule.mk (some w) (some d)) :
    (name ∈ getAvailableIndicators rules refDay ↔
      (weekOfMonth refDay > w ∨ (weekOfMonth refDay = w ∧ refDay ≥ d)))
    ∧ (refDay = 1 → 1 < w → name ∉ getAvailableIndicators rules refDay) := by
  have hmain : name ∈ getAvailableIndicators rules refDay ↔
      (weekOfMonth refDay > w ∨ (weekOfMonth refDay = w ∧ refDay ≥ d)) := by
    unfold getAvailableIndicators
    simp only [List.mem_map, List.mem_filter]
    constructor
    · rintro ⟨⟨n, r⟩, ⟨hr, hallow⟩, rfl⟩
      have := huniq r hr
      subst this
      simpa [ruleAllows, ge_iff_le] using hallow
    · intro h
      refine ⟨(name, ReleaseRule.mk (some w) (some d)), ⟨hmem, ?_⟩, rfl⟩
      simpa [ruleAllows, ge_iff_le] using h
  refine ⟨hmain, ?_⟩
  intro h1 hw hmem'
  have := hmain.mp hmem'
  have hwom : weekOfMonth refDay = 1 := by
    subst h1; decide
  rw [hwom] at this
  rcases this with h | ⟨h, _⟩ <;> omega

/-! ### Theorems: malformed release rules (C7) -/

/-- C7 counterexample: for an indicator whose release rule specifies neither
an explicit day/week pair nor a recognized relative pattern (here: a schedule
with no `day` and no `week` field at all), the availability query returns
normally with the indicator silently omitted — no `ConfigurationError` (or
any other error) is raised.  (No `ConfigurationError` class exists anywhere
in the repository.) -/
theorem c7_malformed_rule_no_error_counterexample :
    getAvailableIndicatorsE [("mystery_series", ReleaseRule.mk none none)] 15 =
      Except.ok [] := rfl

/-- C7 amended: if an indicator's release rule lacks a `day` field (so it
matches neither the explicit day/week branch, the day-only branch, nor the
`day == -1` relative branch), `get_available_indicators` returns normally and
silently treats that indicator as unavailable. -/
theorem c7_malformed_rule_silently_skipped
    (rules : List (String × ReleaseRule)) (refDay : ℤ) (name : String)
    (hmal : ∀ r, (name, r) ∈ rules → r.day = none) :
    ∃ l, getAvailableIndicatorsE rules refDay = Except.ok l ∧ name ∉ l := by
  refine ⟨getAvailableIndicators rules refDay, rfl, ?_⟩
  unfold getAvailableIndicators
  simp only [List.mem_map, List.mem_filter]
  rintro ⟨⟨n, r⟩, ⟨hr, hallow⟩, rfl⟩
  have hd := hmal r hr
  rw [ruleAllows] at hallow
  rcases r with ⟨w, d⟩
  simp only at hd
  subst hd
  cases w <;> simp at hallow

/-- Witness for `c7_malformed_rule_silently_skipped`: a calendar holding one
well-formed and one malformed rule; the query succeeds and omits the
malformed one. -/
theorem c7_malformed_rule_silently_skipped_witness :
    ∃ l, getAvailableIndicatorsE
        [("vehicle_sales", ReleaseRule.mk (some 1) (some 6)),
         ("mystery_series", ReleaseRule.mk (some 3) none)] 20 =
      Except.ok l ∧ "mystery_series" ∉ l :=
  c7_malformed_rule_silently_skipped
    [("vehicle_sales", ReleaseRule.mk (some 1) (some 6)),
     ("mystery_series", ReleaseRule.mk (some 3) none)] 20 "mystery_series"
    (by intro r hr; simp at hr; subst hr; rfl)

/-! ### Theorems: quarter padding (C8) -/

/-- C8: for every non-empty monthly series and `month_in_quarter ∈ {0,1,2}`,
the padding step appends exactly `2 - month_in_quarter` explicit-missing
(NaN) observations after the series' last timestamp at monthly frequency,
and — when the series' observations in the target quarter are exactly its
months `0 .. month_in_quarter` (quarter start `qs = last - month_in_quarter`)
— the padded series has exactly 3 slots in the target quarter. -/
theorem c8_pad_to_quarter
    (X : List (ℕ × Option ℚ)) (miq : ℕ) (lastObs : ℕ × Option ℚ)
    (hlast : X.getLast? = some lastObs) (hmiq : miq ≤ 2) :
    (padToQuarter X miq =
        X ++ (List.range (2 - miq)).map (fun i => (lastObs.1 + 1 + i, none)))
    ∧ (padToQuarter X miq).length = X.length + (2 - miq)
    ∧ (∀ p ∈ (List.range (2 - miq)).map
          (fun i => ((lastObs.1 + 1 + i : ℕ), (none : Option ℚ))), p.2 = none)
    ∧ ((X.filter (fun p => lastObs.1 - miq ≤ p.1)).length = miq + 1 →
        ((padToQuarter X miq).filter
          (fun p => lastObs.1 - miq ≤ p.1)).length = 3) := by
  have hpad : padToQuarter X miq =
      X ++ (List.range (2 - miq)).map (fun i => (lastObs.1 + 1 + i, none)) := by
    unfold padToQuarter
    rw [hlast]
    by_cases h : 2 - miq > 0
    · simp [h]
    · have h0 : 2 - miq = 0 := by omega
      simp [h0]
  refine ⟨hpad, ?_, ?_, ?_⟩
  · rw [hpad]; simp
  · intro p hp
    simp only [List.mem_map] at hp
    obtain ⟨i, _, rfl⟩ := hp
    rfl
  · intro hcount
    rw [hpad, List.filter_append, List.length_append, hcount]
    have hfull : ((List.range (2 - miq)).map
        (fun i => ((lastObs.1 + 1 + i : ℕ), (none : Option ℚ)))).filter
          (fun p => lastObs.1 - miq ≤ p.1) =
        (List.range (2 - miq)).map
          (fun i => ((lastObs.1 + 1 + i : ℕ), (none : Option ℚ))) := by
      apply List.filter_eq_self.mpr
      intro p hp
      simp only [List.mem_map] at hp
      obtain ⟨i, _, rfl⟩ := hp
      simp only [decide_eq_true_eq]
      omega
    rw [hfull, List.length_map, List.length_range]
    omega

/-- Witness for `c8_pad_to_quarter`: a two-month series whose last
observation is month 1 of the quarter (`month_in_quarter = 1`) gains exactly
one NaN slot and then covers exactly 3 in-quarter slots. -/
theorem c8_pad_to_quarter_witness :
    padToQuarter [(0, some 5), (1, some 7)] 1 =
        [(0, some 5), (1, some 7)] ++
          (List.range (2 - 1)).map (fun i => ((1 : ℕ) + 1 + i, none))
    ∧ ((padToQuarter [(0, some 5), (1, some 7)] 1).filter
        (fun p => 1 - 1 ≤ p.1)).length = 3 := by
  have h := c8_pad_to_quarter [(0, some 5), (1, some 7)] 1 (1, some 7) rfl
    (by norm_num)
  exact ⟨h.1, h.2.2.2 (by decide)⟩

/-! ### Theorems: GDP provisional substitution (C3, C10) -/

/-- Every member of a list is bounded by its `max?`. -/
theorem le_of_mem_of_max?_eq {l : List ℤ} {m : ℤ} (h : l.max? = some m) :
    ∀ x ∈ l, x ≤ m := by
  intro x hx
  have key : ∀ (t : List ℤ) (a : ℤ), a ≤ t.foldl max a ∧
      ∀ y ∈ t, y ≤ t.foldl max a := by
    intro t
    induction t with
    | nil => intro a; exact ⟨le_refl a, by simp⟩
    | cons b t ih =>
        intro a
        refine ⟨le_trans (le_max_left a b) (ih (max a b)).1, ?_⟩
        intro y hy
        rcases List.mem_cons.mp hy with rfl | hy
        · exact le_trans (le_max_right a y) (ih (max a y)).1
        · exact (ih (max a b)).2 y hy
  cases l with
  | nil => simp at h
  | cons a t =>
      rw [List.max?_cons'] at h
      have hm := Option.some_injective _ h
      rcases List.mem_cons.mp hx with rfl | hx
      · rw [← hm]; exact (key t x).1
      · rw [← hm]; exact (key t a).2 x hx

/-- Inserting a point whose quarter index exceeds every index already present
appends it at the end. -/
theorem insertByQuarter_eq_append {s : List (ℤ × ℚ)} {p : ℤ × ℚ}
    (h : ∀ q ∈ s, q.1 < p.1) : insertByQuarter s p = s ++ [p] := by
  induction s with
  | nil => rfl
  | cons q rest ih =>
      have hq : q.1 < p.1 := h q (List.mem_cons_self q rest)
      rw [insertByQuarter, if_neg (by omega)]
      simp only [List.cons_append, List.cons.injEq, true_and]
      exact ih (fun r hr => h r (List.mem_cons_of_mem q hr))

/-- C3 counterexample: with an empty stored history, a supplied provisional
forecast `2.1`, and reference date 2023-01-10 (first month of a quarter, day
< 25; the previous quarter 2022Q4 is certainly not contained in the empty
history), `get_gdp_series` returns the stored (empty) series and does not
append the provisional value at the previous quarter's index. -/
theorem c3_provisional_counterexample :
    getGdpSeries ⟨[], some (21/10)⟩ 2023 1 10 = []
    ∧ refQuarter 2023 1 - 1 ∉ (([] : List (ℤ × ℚ)).map Prod.fst)
    ∧ ([] : List (ℤ × ℚ)) ≠ [(refQuarter 2023 1 - 1, 21/10)] :=
  ⟨rfl, by simp, by simp⟩

/-- C3 amended: `get_gdp_series` appends the provisional forecast at the
previous quarter's index exactly when the stored history is non-empty, its
latest stored quarter is strictly earlier than the reference date's previous
quarter, a provisional value was supplied, and the reference date is in the
first month of a quarter before day 25; in every other case the stored
series is returned unchanged. -/
theorem c3_provisional_append
    (g : GDPData) (year month day : ℤ) :
    (∀ f maxQ, g.lastForecast = some f →
      (g.historicalGdp.map Prod.fst).max? = some maxQ →
      maxQ < refQuarter year month - 1 → month % 3 = 1 → day < 25 →
      getGdpSeries g year month day =
        g.historicalGdp ++ [(refQuarter year month - 1, f)])
    ∧ (g.historicalGdp = [] → getGdpSeries g year month day = g.historicalGdp)
    ∧ (g.lastForecast = none → getGdpSeries g year month day = g.historicalGdp)
    ∧ (¬ (month % 3 = 1 ∧ day < 25) →
        getGdpSeries g year month day = g.historicalGdp)
    ∧ (∀ maxQ, (g.historicalGdp.map Prod.fst).max? = some maxQ →
        ¬ maxQ < refQuarter year month - 1 →
        getGdpSeries g year month day = g.historicalGdp) := by
  refine ⟨?_, ?_, ?_, ?_, ?_⟩
  · intro f maxQ hf hmax hlt hmonth hday
    have hne : ¬ g.historicalGdp.isEmpty = true := by
      intro h
      rw [List.isEmpty_iff.mp h] at hmax
      simp at hmax
    have hub := le_of_mem_of_max?_eq hmax
    have hnotmem : refQuarter year month - 1 ∉ g.historicalGdp.map Prod.fst := by
      intro hmem
      have := hub _ hmem
      omega
    unfold getGdpSeries
    rw [if_neg hne, hmax, hf]
    dsimp only
    rw [if_pos ⟨hlt, hmonth, hday⟩, if_neg hnotmem]
    exact insertByQuarter_eq_append
      (fun q hq => by
        have := hub q.1 (List.mem_map_of_mem Prod.fst hq)
        simp only
        omega)
  · intro h
    unfold getGdpSeries
    rw [h]
    rfl
  · intro h
    unfold getGdpSeries
    by_cases hne : g.historicalGdp.isEmpty = true
    · rw [if_pos hne]
    · rw [if_neg hne, h]
      cases (g.historicalGdp.map Prod.fst).max? <;> rfl
  · intro h
    unfold getGdpSeries
    by_cases hne : g.historicalGdp.isEmpty = true
    · rw [if_pos hne]
    · rw [if_neg hne]
      cases hmax : (g.historicalGdp.map Prod.fst).max? with
      | none => cases g.lastForecast <;> rfl
      | some maxQ =>
          cases g.lastForecast with
          | none => rfl
          | some f =>
              dsimp only
              rw [if_neg (by tauto)]
  · intro maxQ hmax hnlt
    unfold getGdpSeries
    by_cases hne : g.historicalGdp.isEmpty = true
    · rw [if_pos hne]
    · rw [if_neg hne, hmax]
      cases g.lastForecast with
      | none => rfl
      | some f =>
          dsimp only
          rw [if_neg (by tauto)]

/-- Witness for `c3_provisional_append`: history ending at 2022Q3 (index
8090), provisional `2.1` supplied, reference date 2023-01-10 — the value is
appended at index 8091 (2022Q4). -/
theorem c3_provisional_append_witness :
    getGdpSeries ⟨[((8090 : ℤ), (1 : ℚ))], some (21/10)⟩ 2023 1 10 =
      [((8090 : ℤ), (1 : ℚ))] ++ [(refQuarter 2023 1 - 1, 21/10)] :=
  (c3_provisional_append ⟨[((8090 : ℤ), (1 : ℚ))], some (21/10)⟩ 2023 1 10).1
    (21/10) 8090 rfl rfl (by norm_num [refQuarter]) (by norm_num) (by norm_num)

/-! ### Theorems: forecast-history update (C9) -/

/-- `List.lookup` at the head key. -/
theorem lookup_cons_self {β : Type} (k : String) (v : β) (t : List (String × β)) :
    List.lookup k ((k, v) :: t) = some v := by
  rw [List.lookup_cons]
  simp

/-- `List.lookup` skips a mismatched head key. -/
theorem lookup_cons_of_ne {β : Type} (n k : String) (v : β)
    (t : List (String × β)) (h : n ≠ k) :
    List.lookup n ((k, v) :: t) = List.lookup n t := by
  rw [List.lookup_cons]
  have hb : (n == k) = false := by rw [beq_eq_false_iff_ne]; exact h
  rw [hb]

/-- Looking up the updated key after the conditional in-place update used by
`recordForecast`. -/
theorem lookup_map_upd_eq (h : List (String × ForecastHistory)) (n : String)
    (fv a : ℚ) (d : ℤ) :
    (h.map (fun e => if e.1 = n then
        (e.1, (⟨e.2.indicator, e.2.forecasts ++ [fv], e.2.actuals ++ [a],
               e.2.dates ++ [d]⟩ : ForecastHistory)) else e)).lookup n =
      (h.lookup n).map (fun x =>
        ⟨x.indicator, x.forecasts ++ [fv], x.actuals ++ [a], x.dates ++ [d]⟩) := by
  induction h with
  | nil => rfl
  | cons e rest ih =>
      obtain ⟨k, v⟩ := e
      simp only [List.map_cons]
      by_cases he : k = n
      · subst he
        rw [if_pos rfl, lookup_cons_self, lookup_cons_self]
        rfl
      · have hnk : n ≠ k := fun hh => he hh.symm
        rw [if_neg he, lookup_cons_of_ne _ _ _ _ hnk,
          lookup_cons_of_ne _ _ _ _ hnk, ih]

/-- Keys other than the updated one are untouched by the in-place update. -/
theorem lookup_map_upd_ne (h : List (String × ForecastHistory)) (n m : String)
    (fv a : ℚ) (d : ℤ) (hne : m ≠ n) :
    (h.map (fun e => if e.1 = n then
        (e.1, (⟨e.2.indicator, e.2.forecasts ++ [fv], e.2.actuals ++ [a],
               e.2.dates ++ [d]⟩ : ForecastHistory)) else e)).lookup m =
      h.lookup m := by
  induction h with
  | nil => rfl
  | cons e rest ih =>
      obtain ⟨k, v⟩ := e
      simp only [List.map_cons]
      by_cases hmk : m = k
      · subst hmk
        rw [if_neg (fun hh => hne hh), lookup_cons_self, lookup_cons_self]
      · by_cases he : k = n
        · rw [if_pos he, lookup_cons_of_ne _ _ _ _ hmk,
            lookup_cons_of_ne _ _ _ _ hmk, ih]
        · rw [if_neg he, lookup_cons_of_ne _ _ _ _ hmk,
            lookup_cons_of_ne _ _ _ _ hmk, ih]

/-- `lookup` distributes over append through `Option.or`. -/
theorem lookup_append_or (l1 l2 : List (String × ForecastHistory)) (n : String) :
    (l1 ++ l2).lookup n = ((l1.lookup n).or (l2.lookup n)) := by
  induction l1 with
  | nil => simp
  | cons e rest ih =>
      obtain ⟨k, v⟩ := e
      rw [List.cons_append]
      by_cases hk : n = k
      · subst hk
        rw [lookup_cons_self, lookup_cons_self]
        rfl
      · rw [lookup_cons_of_ne _ _ _ _ hk, lookup_cons_of_ne _ _ _ _ hk, ih]

/-- C9 (claim theorem): starting from a history table whose entries all
satisfy the equal-lengths invariant, one `update_forecast_history` call with
duplicate-free row indicators (i) preserves the invariant for every entry,
(ii) appends exactly one `(forecast, actual, date)` triple to each indicator
present in the rows — creating a fresh empty entry for unseen indicators —
and (iii) leaves every other indicator's entry unchanged. -/
theorem c9_update_history_invariant
    (rows : List (String × ℚ)) (history : List (String × ForecastHistory))
    (actual : ℚ) (date : ℤ)
    (hpre : ∀ p ∈ history, histInv p.2)
    (hnodup : (rows.map Prod.fst).Nodup) :
    (∀ p ∈ updateForecastHistory history rows actual date, histInv p.2)
    ∧ (∀ name fv, (name, fv) ∈ rows →
        (updateForecastHistory history rows actual date).lookup name =
          some (let old := (history.lookup name).getD ⟨name, [], [], []⟩
                ⟨old.indicator, old.forecasts ++ [fv],
                 old.actuals ++ [actual], old.dates ++ [date]⟩))
    ∧ (∀ name, name ∉ rows.map Prod.fst →
        (updateForecastHistory history rows actual date).lookup name =
          history.lookup name) := by
  induction rows generalizing history with
  | nil =>
      exact ⟨fun p hp => hpre p hp, fun name fv hmem => absurd hmem (by simp),
        fun name _ => rfl⟩
  | cons row rest ih =>
      have hstep : updateForecastHistory history (row :: rest) actual date =
          updateForecastHistory (recordForecast history row actual date) rest
            actual date := rfl
      rw [List.map_cons] at hnodup
      have hnotin : row.1 ∉ rest.map Prod.fst := (List.nodup_cons.mp hnodup).1
      have hrest : (rest.map Prod.fst).Nodup := (List.nodup_cons.mp hnodup).2
      have hpre' : ∀ p ∈ recordForecast history row actual date, histInv p.2 := by
        intro p hp
        unfold recordForecast at hp
        simp only [List.mem_map] at hp
        obtain ⟨q, hq, rfl⟩ := hp
        have hqinv : histInv q.2 := by
          by_cases hl : (history.lookup row.1).isSome
          · rw [if_pos hl] at hq
            exact hpre q hq
          · rw [if_neg hl] at hq
            rcases List.mem_append.mp hq with hq | hq
            · exact hpre q hq
            · simp only [List.mem_singleton] at hq
              subst hq
              exact ⟨rfl, rfl⟩
        by_cases he : q.1 = row.1
        · rw [if_pos he]
          exact ⟨by simpa using hqinv.1, by simpa using hqinv.2⟩
        · rw [if_neg he]
          exact hqinv
      have lself : (recordForecast history row actual date).lookup row.1 =
          some (let old := (history.lookup row.1).getD ⟨row.1, [], [], []⟩
                ⟨old.indicator, old.forecasts ++ [row.2],
                 old.actuals ++ [actual], old.dates ++ [date]⟩) := by
        unfold recordForecast
        by_cases hl : (history.lookup row.1).isSome
        · rw [if_pos hl, lookup_map_upd_eq]
          obtain ⟨e, he⟩ := Option.isSome_iff_exists.mp hl
          rw [he]
          rfl
        · have hnone : history.lookup row.1 = none := by
            cases hh : history.lookup row.1
            · rfl
            · rw [hh] at hl; simp at hl
          have hone : ([(row.1, (⟨row.1, [], [], []⟩ : ForecastHistory))].map
              (fun e => if e.1 = row.1 then
                (e.1, (⟨e.2.indicator, e.2.forecasts ++ [row.2],
                  e.2.actuals ++ [actual], e.2.dates ++ [date]⟩ :
                    ForecastHistory)) else e)) =
              [(row.1, (⟨row.1, [row.2], [actual], [date]⟩ : ForecastHistory))] := by
            simp
          rw [if_neg hl, List.map_append, lookup_append_or, lookup_map_upd_eq,
            hnone, hone, lookup_cons_self]
          rfl
      have lother : ∀ m, m ≠ row.1 →
          (recordForecast history row actual date).lookup m =
            history.lookup m := by
        intro m hm
        unfold recordForecast
        by_cases hl : (history.lookup row.1).isSome
        · rw [if_pos hl, lookup_map_upd_ne _ _ _ _ _ _ hm]
        · have hone : ([(row.1, (⟨row.1, [], [], []⟩ : ForecastHistory))].map
              (fun e => if e.1 = row.1 then
                (e.1, (⟨e.2.indicator, e.2.forecasts ++ [row.2],
                  e.2.actuals ++ [actual], e.2.dates ++ [date]⟩ :
                    ForecastHistory)) else e)) =
              [(row.1, (⟨row.1, [row.2], [actual], [date]⟩ : ForecastHistory))] := by
            simp
          rw [if_neg hl, List.map_append, lookup_append_or,
            lookup_map_upd_ne _ _ _ _ _ _ hm, hone,
            lookup_cons_of_ne _ _ _ _ hm]
          cases history.lookup m <;> rfl
      obtain ⟨ih1, ih2, ih3⟩ :=
        ih (recordForecast history row actual date) hpre' hrest
      rw [hstep]
      refine ⟨ih1, ?_, ?_⟩
      · intro name fv hmem
        rcases List.mem_cons.mp hmem with heq | hmem'
        · have hn : name = row.1 := congrArg Prod.fst heq
          have hf : fv = row.2 := congrArg Prod.snd heq
          subst hn; subst hf
          rw [ih3 _ hnotin]
          exact lself
        · have hne : name ≠ row.1 := by
            intro h
            exact hnotin (h ▸ (List.mem_map_of_mem Prod.fst hmem'))
          rw [ih2 name fv hmem', lother name hne]
      · intro name hnm
        have hne : name ≠ row.1 := by
          intro h
          exact hnm (by simp [h])
        have hnrest : name ∉ rest.map Prod.fst := by
          intro h
          exact hnm (by simp [h])
        rw [ih3 name hnrest, lother name hne]

/-- Witness for `c9_update_history_invariant`: a table holding one entry for
`EAI` with one recorded triple, updated with new forecasts for `EAI` and the
previously unseen `PMI_M`. -/
theorem c9_update_history_invariant_witness :
    (updateForecastHistory [("EAI", ⟨"EAI", [1], [5], [10]⟩)]
        [("EAI", 2), ("PMI_M", 3)] 7 20).lookup "EAI" =
      some ⟨"EAI", [1, 2], [5, 7], [10, 20]⟩ := by
  have h := (c9_update_history_invariant [("EAI", 2), ("PMI_M", 3)]
    [("EAI", ⟨"EAI", [1], [5], [10]⟩)] 7 20
    (by intro p hp; simp only [List.mem_singleton] at hp; subst hp;
        exact ⟨rfl, rfl⟩)
    (by simp)).2.1 "EAI" 2 (by simp)
  rw [h]
  rfl

/-- C10: `get_gdp_series` never mutates the `GDPData` object: in the
state-explicit embedding the state component is returned unchanged, and a
repeated call on the returned state with the same reference date returns the
same series. -/
theorem c10_get_gdp_series_no_mutation (g : GDPData) (year month day : ℤ) :
    (getGdpSeriesSt g year month day).1 = g
    ∧ (getGdpSeriesSt (getGdpSeriesSt g year month day).1 year month day).2 =
        (getGdpSeriesSt g year month day).2 :=
  ⟨rfl, rfl⟩

/-- Witness for `c2_weekday_rule_availability`: a one-indicator calendar with
rule `{week := 2, day := 11}` queried on the 1st of the month — the indicator
is not available (week 2 cannot be reached on day 1). -/
theorem c2_weekday_rule_availability_witness :
    "industrial_activity" ∉
      getAvailableIndicators
        [("industrial_activity", ReleaseRule.mk (some 2) (some 11))] 1 :=
  (c2_weekday_rule_availability
    [("industrial_activity", ReleaseRule.mk (some 2) (some 11))] 1
    "industrial_activity" 2 11 (by simp) (by simp)).2 rfl (by norm_num)

/-! ### Theorems: combination-weight properties (C1) -/

/-- Dividing each element distributes over the list sum. -/
theorem sum_map_div (l : List ℚ) (s : ℚ) :
    (l.map (fun x => x / s)).sum = l.sum / s := by
  induction l with
  | nil => simp
  | cons x t ih => simp [ih, add_div]

/-- Summing a constant map. -/
theorem sum_const_map {α : Type} (l : List α) (c : ℚ) :
    (l.map (fun _ => c)).sum = l.length * c := by
  induction l with
  | nil => simp
  | cons x t ih =>
      simp only [List.map_cons, List.sum_cons, ih, List.length_cons]
      push_cast
      ring

/-- The positional equal-weight fallback is non-negative and sums to 1 for a
positive model count. -/
theorem equalWeightsPos_props {n : ℕ} (h : n ≠ 0) :
    (∀ p ∈ equalWeightsPos n, 0 ≤ p.2)
    ∧ ((equalWeightsPos n).map Prod.snd).sum = 1 := by
  constructor
  · intro p hp
    obtain ⟨i, _, rfl⟩ := List.mem_map.mp hp
    have : (0 : ℚ) ≤ (n : ℚ) := by positivity
    exact div_nonneg zero_le_one this
  · unfold equalWeightsPos
    rw [List.map_map]
    have he : (Prod.snd ∘ fun i => ((SIdx.num i), 1 / (n : ℚ))) =
        fun _ => 1 / (n : ℚ) := rfl
    rw [he, sum_const_map, List.length_range, mul_one_div,
      div_self (by exact_mod_cast h)]

/-- Normalizing a list of positive values by its sum yields non-negative
values summing to 1. -/
theorem norm_list_props (l : List ℚ) (hpos : ∀ x ∈ l, 0 < x) (hne : l ≠ []) :
    (∀ x ∈ l.map (fun w => w / l.sum), 0 ≤ x)
    ∧ (l.map (fun w => w / l.sum)).sum = 1 ∧ l.sum ≠ 0 := by
  have hspos : 0 < l.sum := List.sum_pos l hpos hne
  refine ⟨?_, ?_, ne_of_gt hspos⟩
  · intro x hx
    obtain ⟨w, hw, rfl⟩ := List.mem_map.mp hx
    exact div_nonneg (le_of_lt (hpos w hw)) (le_of_lt hspos)
  · rw [sum_map_div, div_self (ne_of_gt hspos)]

/-- Attaching positional indices preserves the weight list's values. -/
theorem enum_num_props (L : List ℚ) (hnn : ∀ x ∈ L, 0 ≤ x) (hs : L.sum = 1) :
    (∀ p ∈ L.enum.map (fun p => (SIdx.num p.1, p.2)), 0 ≤ p.2)
    ∧ ((L.enum.map (fun p => (SIdx.num p.1, p.2))).map Prod.snd).sum = 1 := by
  constructor
  · intro p hp
    obtain ⟨q, hq, rfl⟩ := List.mem_map.mp hp
    have : q.2 ∈ L.enum.map Prod.snd := List.mem_map_of_mem Prod.snd hq
    rw [List.enum_map_snd] at this
    exact hnn q.2 this
  · rw [List.map_map]
    have he : (Prod.snd ∘ fun p : ℕ × ℚ => (SIdx.num p.1, p.2)) = Prod.snd := rfl
    rw [he, List.enum_map_snd, hs]

/-- Normalizing a keyed list of positive weights by its value sum gives
non-negative values summing to 1 (for either index style `f`). -/
theorem normalize_keyed_props {α β : Type} (ws : List (α × ℚ)) (f : α → β)
    (hpos : ∀ p ∈ ws, 0 < p.2) (hne : ws ≠ []) :
    (∀ p ∈ ws.map (fun v => (f v.1, v.2 / (ws.map Prod.snd).sum)), 0 ≤ p.2)
    ∧ ((ws.map (fun v => (f v.1, v.2 / (ws.map Prod.snd).sum))).map
        Prod.snd).sum = 1
    ∧ (ws.map Prod.snd).sum ≠ 0 := by
  have hspos : 0 < (ws.map Prod.snd).sum := by
    apply List.sum_pos
    · intro x hx
      obtain ⟨p, hp, rfl⟩ := List.mem_map.mp hx
      exact hpos p hp
    · intro hc
      exact hne (by simpa using hc)
  refine ⟨?_, ?_, ne_of_gt hspos⟩
  · intro p hp
    obtain ⟨v, hv, rfl⟩ := List.mem_map.mp hp
    exact div_nonneg (le_of_lt (hpos v hv)) (le_of_lt hspos)
  · rw [List.map_map]
    have he : (Prod.snd ∘ fun v : α × ℚ =>
        (f v.1, v.2 / (ws.map Prod.snd).sum)) =
        fun v : α × ℚ => v.2 / (ws.map Prod.snd).sum := rfl
    rw [he]
    have he2 : (ws.map fun v : α × ℚ => v.2 / (ws.map Prod.snd).sum) =
        ((ws.map Prod.snd).map (fun x => x / (ws.map Prod.snd).sum)) := by
      rw [List.map_map]; rfl
    rw [he2, sum_map_div, div_self (ne_of_gt hspos)]

/-- `combine_bic` on a non-empty frame whose criteria are all finite and
positive: the returned weights are non-negative and sum to exactly 1. -/
theorem combineBic_props (rows : List (String × Option ℚ))
    (hne : rows ≠ [])
    (hpos : ∀ r ∈ rows, ∃ b, r.2 = some b ∧ 0 < b) :
    ∃ ws, combineBic rows = Except.ok ws ∧ (∀ p ∈ ws, 0 ≤ p.2) ∧
      (ws.map Prod.snd).sum = 1 := by
  have hemp : rows.isEmpty = false := by
    cases rows
    · exact absurd rfl hne
    · rfl
  obtain ⟨r0, rest, hrows⟩ := List.exists_cons_of_ne_nil hne
  have hfne : rows.filterMap Prod.snd ≠ [] := by
    obtain ⟨b0, hb0, _⟩ := hpos r0 (hrows ▸ List.mem_cons_self r0 rest)
    rw [hrows, List.filterMap_cons, hb0]
    simp
  cases hmax : (rows.filterMap Prod.snd).max? with
  | none => exact absurd (List.max?_eq_none_iff.mp hmax) hfne
  | some m =>
      have hwpos : ∀ w ∈ (rows.map (fun r => r.2.getD (m + 100))).map
          (fun b => 1 / b), 0 < w := by
        intro w hw
        obtain ⟨b, hb, rfl⟩ := List.mem_map.mp hw
        obtain ⟨r, hr, rfl⟩ := List.mem_map.mp hb
        obtain ⟨bv, hbv, hbpos⟩ := hpos r hr
        rw [hbv]
        simpa using one_div_pos.mpr hbpos
      have hwne : (rows.map (fun r => r.2.getD (m + 100))).map
          (fun b => 1 / b) ≠ [] := by
        rw [hrows]; simp
      have hsne : ((rows.map (fun r => r.2.getD (m + 100))).map
          (fun b => 1 / b)).sum ≠ 0 :=
        ne_of_gt (List.sum_pos _ hwpos hwne)
      obtain ⟨hLnn, hLsum, _⟩ := norm_list_props _ hwpos hwne
      obtain ⟨hnn, hsum⟩ := enum_num_props _ hLnn hLsum
      refine ⟨_, ?_, hnn, hsum⟩
      unfold combineBic
      rw [if_neg (by simp [hemp])]
      dsimp only
      rw [hmax]
      dsimp only
      rw [if_neg hsne]

/-- C1 counterexample: `combine_bic` on two indicators with criterion values
−10 and 5 (finite, non-empty input) returns the weight mapping
`{0: −1, 1: 2}` — a negative weight, contradicting the claim that every
strategy returns non-negative weights on a non-empty indicator set. -/
theorem c1_nonneg_weights_counterexample :
    combineBic [("A", some (-10)), ("B", some 5)] =
      Except.ok [(SIdx.num 0, -1), (SIdx.num 1, 2)] := by
  simp only [combineBic, List.isEmpty_cons, Bool.false_eq_true, if_false,
    List.filterMap_cons, List.max?_cons']
  norm_num [List.enum, List.enumFrom]

/-- Membership is invariant under first-occurrence deduplication. -/
theorem mem_dedupFirst {l : List String} {x : String} :
    x ∈ dedupFirst l ↔ x ∈ l := by
  induction l using dedupFirst.induct with
  | case1 => rw [dedupFirst]
  | case2 y ys ih =>
      rw [dedupFirst]
      constructor
      · intro h
        rcases List.mem_cons.mp h with rfl | h
        · exact List.mem_cons_self _ _
        · exact List.mem_cons_of_mem _ (List.mem_of_mem_filter (ih.mp h))
      · intro h
        rcases List.mem_cons.mp h with rfl | h
        · exact List.mem_cons_self _ _
        · by_cases hxy : x = y
          · subst hxy; exact List.mem_cons_self _ _
          · exact List.mem_cons_of_mem _
              (ih.mpr (List.mem_filter.mpr ⟨h, by simpa using hxy⟩))

/-- `combine_rmse` on a non-empty indicator column, when every indicator
present in the history has a positive finite windowed RMSE: non-negative
weights summing to 1. -/
theorem combineRmse_props (names : List String) (hist : String → Option HMetrics)
    (hne : names ≠ [])
    (hpos : ∀ n h, hist n = some h → ∃ q, h.rmseW = some q ∧ 0 < q) :
    (∀ p ∈ combineRmse names hist, 0 ≤ p.2)
    ∧ ((combineRmse names hist).map Prod.snd).sum = 1 := by
  have hlen : names.length ≠ 0 := fun h => hne (List.length_eq_zero.mp h)
  unfold combineRmse
  rw [if_neg (by simp [hne])]
  dsimp only
  set rv := (dedupFirst names).filterMap
    (fun n => (hist n).map (fun h => (n, h.rmseW))) with hrv
  by_cases hrve : rv.isEmpty
  · rw [if_pos hrve]
    exact equalWeightsPos_props hlen
  · rw [if_neg hrve]
    have hallsome : ∀ v ∈ rv, ∃ q, v.2 = some q ∧ 0 < q := by
      intro v hv
      rw [hrv] at hv
      obtain ⟨n, _, hmap⟩ := List.mem_filterMap.mp hv
      obtain ⟨h, hh, rfl⟩ := Option.map_eq_some'.mp hmap
      exact hpos n h hh
    have hrvne : rv ≠ [] := fun hc => hrve (by simp [hc])
    obtain ⟨v0, vrest, hv0⟩ := List.exists_cons_of_ne_nil hrvne
    have hfne : rv.filterMap Prod.snd ≠ [] := by
      obtain ⟨q, hq, _⟩ := hallsome v0 (hv0 ▸ List.mem_cons_self _ _)
      rw [hv0, List.filterMap_cons, hq]
      simp
    cases hmax : (rv.filterMap Prod.snd).max? with
    | none => exact absurd (List.max?_eq_none_iff.mp hmax) hfne
    | some m =>
        dsimp only
        have hwpos : ∀ p ∈ rv.map (fun v => (v.1, 1 / v.2.getD (m + 100))),
            0 < p.2 := by
          intro p hp
          obtain ⟨v, hv, rfl⟩ := List.mem_map.mp hp
          obtain ⟨q, hq, hqpos⟩ := hallsome v hv
          show 0 < 1 / v.2.getD (m + 100)
          rw [hq]
          simpa using one_div_pos.mpr hqpos
        have hwne : rv.map (fun v => (v.1, 1 / v.2.getD (m + 100))) ≠ [] :=
          fun hc => hrvne (by simpa using hc)
        obtain ⟨hnn, hsum, hsne⟩ := normalize_keyed_props _ SIdx.str hwpos hwne
        rw [if_neg hsne]
        exact ⟨hnn, hsum⟩

/-- Every average rank of a value present in the ranked list is positive
(in fact at least 1). -/
theorem rankAvg_pos (vs : List (Option ℚ)) (v : Option ℚ) (hv : v ∈ vs) :
    0 < rankAvg vs v := by
  unfold rankAvg
  have h1 : (0:ℚ) ≤ ((vs.countP (fun u => optLtB u v) : ℕ) : ℚ) := by positivity
  have h2 : (1:ℚ) ≤ ((vs.countP (fun u => u == v) : ℕ) : ℚ) := by
    have : 0 < vs.countP (fun u => u == v) :=
      List.countP_pos_iff.mpr ⟨v, hv, by simp⟩
    exact_mod_cast this
  linarith

/-- `combine_performance_rank` on a non-empty indicator column: non-negative
weights summing to 1, for every possible history. -/
theorem combinePerformanceRank_props (names : List String)
    (hist : String → Option HMetrics) (hne : names ≠ []) :
    (∀ p ∈ combinePerformanceRank names hist, 0 ≤ p.2)
    ∧ ((combinePerformanceRank names hist).map Prod.snd).sum = 1 := by
  have hlen : names.length ≠ 0 := fun h => hne (List.length_eq_zero.mp h)
  unfold combinePerformanceRank
  rw [if_neg (by simp [hne])]
  dsimp only
  set keys := (dedupFirst names).filterMap
    (fun n => (hist n).map (fun h => (n, h))) with hkeys
  by_cases hke : keys.isEmpty
  · rw [if_pos hke]
    exact equalWeightsPos_props hlen
  · rw [if_neg hke]
    have hkne : keys ≠ [] := fun hc => hke (by simp [hc])
    have hcpos : ∀ c ∈ keys.map (fun k =>
        (k.1, rankAvg (keys.map (fun k => k.2.rmse)) k.2.rmse +
              rankAvg (keys.map (fun k => k.2.mae)) k.2.mae +
              rankAvg (keys.map (fun k => (some (-k.2.dirAcc) : Option ℚ)))
                (some (-k.2.dirAcc)))), 0 < c.2 := by
      intro c hc
      obtain ⟨k, hk, rfl⟩ := List.mem_map.mp hc
      have p1 := rankAvg_pos _ _ (List.mem_map_of_mem (fun k => k.2.rmse) hk)
      have p2 := rankAvg_pos _ _ (List.mem_map_of_mem (fun k => k.2.mae) hk)
      have p3 := rankAvg_pos _ _
        (List.mem_map_of_mem (fun k => (some (-k.2.dirAcc) : Option ℚ)) hk)
      show 0 < rankAvg _ _ + rankAvg _ _ + rankAvg _ _
      linarith
    have hwpos : ∀ p ∈ (keys.map (fun k =>
        (k.1, rankAvg (keys.map (fun k => k.2.rmse)) k.2.rmse +
              rankAvg (keys.map (fun k => k.2.mae)) k.2.mae +
              rankAvg (keys.map (fun k => (some (-k.2.dirAcc) : Option ℚ)))
                (some (-k.2.dirAcc))))).map (fun c => (c.1, 1 / c.2)),
        0 < p.2 := by
      intro p hp
      obtain ⟨c, hc, rfl⟩ := List.mem_map.mp hp
      show 0 < 1 / c.2
      simpa using one_div_pos.mpr (hcpos c hc)
    have hwne : (keys.map (fun k =>
        (k.1, rankAvg (keys.map (fun k => k.2.rmse)) k.2.rmse +
              rankAvg (keys.map (fun k => k.2.mae)) k.2.mae +
              rankAvg (keys.map (fun k => (some (-k.2.dirAcc) : Option ℚ)))
                (some (-k.2.dirAcc))))).map (fun c => (c.1, 1 / c.2)) ≠ [] :=
      fun hc => hkne (by simpa using hc)
    obtain ⟨hnn, hsum, hsne⟩ := normalize_keyed_props _ SIdx.str hwpos hwne
    rw [if_neg hsne]
    exact ⟨hnn, hsum⟩

/-- One adaptive score `rmse_weight / rmse + dir_weight * dir_acc` is
positive for either weight pair, a positive RMSE and a non-negative
directional accuracy. -/
theorem adaptive_score_pos (ub : Bool) (q dacc : ℚ) (hq : 0 < q)
    (hd : 0 ≤ dacc) :
    0 < (if ub then (1/2 : ℚ) else 7/10) / q +
        (if ub then (1/2 : ℚ) else 3/10) * dacc := by
  have h1 : 0 < (if ub then (1/2 : ℚ) else 7/10) := by split <;> norm_num
  have h2 : 0 ≤ (if ub then (1/2 : ℚ) else 3/10) := by split <;> norm_num
  have := div_pos h1 hq
  nlinarith

/-- `combine_adaptive` on a non-empty indicator column, when every present
indicator has a positive finite windowed RMSE and a non-negative windowed
directional accuracy: non-negative weights summing to 1. -/
theorem combineAdaptive_props (names : List String)
    (hist : String → Option HMetrics) (window : ℕ) (hne : names ≠ [])
    (hpos : ∀ n h, hist n = some h → ∃ q, h.rmseW = some q ∧ 0 < q)
    (hdir : ∀ n h, hist n = some h → 0 ≤ h.dirAccW) :
    (∀ p ∈ combineAdaptive names hist window, 0 ≤ p.2)
    ∧ ((combineAdaptive names hist window).map Prod.snd).sum = 1 := by
  have hlen : names.length ≠ 0 := fun h => hne (List.length_eq_zero.mp h)
  unfold combineAdaptive
  rw [if_neg (by simp [hne])]
  by_cases hall : names.all (fun n => (hist n).isNone)
  · rw [if_pos hall]
    exact equalWeightsPos_props hlen
  · rw [if_neg hall]
    dsimp only
    set keys := (dedupFirst names).filterMap
      (fun n => (hist n).map (fun h => (n, h))) with hkeys
    have hkne : keys ≠ [] := by
      obtain ⟨n, hn, hns⟩ : ∃ n ∈ names, ¬((hist n).isNone = true) := by
        by_contra hc
        push_neg at hc
        exact hall (List.all_eq_true.mpr (fun x hx => by
          have := hc x hx
          simpa using this))
      cases hhn : hist n with
      | none => rw [hhn] at hns; simp at hns
      | some h =>
          intro hc
          have hmem : (n, h) ∈ keys := by
            rw [hkeys]
            exact List.mem_filterMap.mpr
              ⟨n, mem_dedupFirst.mpr hn, by rw [hhn]; rfl⟩
          rw [hc] at hmem
          simp at hmem
    have hallk : ∀ k ∈ keys, ∃ q, (k : String × HMetrics).2.rmseW = some q ∧
        0 < q ∧ 0 ≤ k.2.dirAccW := by
      intro k hk
      rw [hkeys] at hk
      obtain ⟨n, _, hmap⟩ := List.mem_filterMap.mp hk
      obtain ⟨h, hh, rfl⟩ := Option.map_eq_some'.mp hmap
      obtain ⟨q, hq, hqpos⟩ := hpos n h hh
      exact ⟨q, hq, hqpos, hdir n h hh⟩
    obtain ⟨k0, krest, hk0⟩ := List.exists_cons_of_ne_nil hkne
    have hfne : keys.filterMap (fun k => k.2.rmseW) ≠ [] := by
      obtain ⟨q, hq, _⟩ := hallk k0 (hk0 ▸ List.mem_cons_self _ _)
      rw [hk0, List.filterMap_cons, hq]
      simp
    cases hmax : (keys.filterMap (fun k => k.2.rmseW)).max? with
    | none => exact absurd (List.max?_eq_none_iff.mp hmax) hfne
    | some m =>
        dsimp only
        have hwpos : ∀ p ∈ keys.map (fun k =>
            (k.1, (if adaptVolSwitch names hist window then (1/2 : ℚ) else 7/10) /
                k.2.rmseW.getD (m + 100) +
              (if adaptVolSwitch names hist window then (1/2 : ℚ) else 3/10) *
                k.2.dirAccW)), 0 < p.2 := by
          intro p hp
          obtain ⟨k, hk, rfl⟩ := List.mem_map.mp hp
          obtain ⟨q, hq, hqpos, hdk⟩ := hallk k hk
          show 0 < _ / k.2.rmseW.getD (m + 100) + _ * k.2.dirAccW
          rw [hq]
          exact adaptive_score_pos _ q k.2.dirAccW hqpos hdk
        have hwne : keys.map (fun k =>
            (k.1, (if adaptVolSwitch names hist window then (1/2 : ℚ) else 7/10) /
                k.2.rmseW.getD (m + 100) +
              (if adaptVolSwitch names hist window then (1/2 : ℚ) else 3/10) *
                k.2.dirAccW)) ≠ [] :=
          fun hc => hkne (by simpa using hc)
        obtain ⟨hnn, hsum, hsne⟩ := normalize_keyed_props _ SIdx.str hwpos hwne
        rw [if_neg hsne]
        exact ⟨hnn, hsum⟩

/-- First-occurrence deduplication yields a duplicate-free list. -/
theorem dedupFirst_nodup (l : List String) : (dedupFirst l).Nodup := by
  induction l using dedupFirst.induct with
  | case1 => rw [dedupFirst]; exact List.nodup_nil
  | case2 x xs ih =>
      rw [dedupFirst]
      refine List.nodup_cons.mpr ⟨?_, ih⟩
      intro hmem
      have h1 := mem_dedupFirst.mp hmem
      have h2 := List.mem_filter.mp h1
      simp at h2

/-- The keys of a metric dict built over `l` form a sublist of `l`. -/
theorem filterMap_keys_sublist (l : List String)
    (hist : String → Option HMetrics) (f : HMetrics → Option ℚ) :
    ((l.filterMap (fun n => (hist n).map (fun h => (n, f h)))).map
      Prod.fst).Sublist l := by
  induction l with
  | nil => simp
  | cons x xs ih =>
      rw [List.filterMap_cons]
      cases hist x with
      | none => exact ih.cons x
      | some h =>
          rw [Option.map_some']
          rw [List.map_cons]
          exact ih.cons₂ x

/-- The fold inside `findMinFirst` returns its accumulator or a list
element. -/
theorem foldl_min_cases (l : List (String × Option ℚ)) :
    ∀ (acc : Option (String × Option ℚ)) b,
      l.foldl (fun acc v => match acc with
        | none => some v
        | some bb => if ovalLeB bb.2 v.2 then some bb else some v) acc =
          some b →
      acc = some b ∨ b ∈ l := by
  induction l with
  | nil => exact fun acc b h => Or.inl h
  | cons v t ih =>
      intro acc b h
      rw [List.foldl_cons] at h
      rcases ih _ b h with hstep | hmem
      · cases acc with
        | none =>
            dsimp only at hstep
            right
            have hvb : v = b := Option.some.inj hstep
            rw [← hvb]
            exact List.mem_cons_self v t
        | some a =>
            dsimp only at hstep
            split at hstep
            · exact Or.inl hstep
            · right
              have : v = b := Option.some.inj hstep
              rw [← this]
              exact List.mem_cons_self v t
      · exact Or.inr (List.mem_cons_of_mem v hmem)

/-- A value returned by `findMinFirst` is an entry of the list. -/
theorem findMinFirst_mem {vs : List (String × Option ℚ)}
    {b : String × Option ℚ} (h : findMinFirst vs = some b) : b ∈ vs := by
  unfold findMinFirst at h
  rcases foldl_min_cases vs none b h with hc | hc
  · exact absurd hc (by simp)
  · exact hc

/-- On a non-empty list, `findMinFirst` returns a value. -/
theorem findMinFirst_isSome {vs : List (String × Option ℚ)} (h : vs ≠ []) :
    ∃ b, findMinFirst vs = some b := by
  obtain ⟨v, t, rfl⟩ := List.exists_cons_of_ne_nil h
  have key : ∀ (l : List (String × Option ℚ)) (a : String × Option ℚ),
      ∃ b, l.foldl (fun acc v => match acc with
        | none => some v
        | some bb => if ovalLeB bb.2 v.2 then some bb else some v) (some a) =
        some b := by
    intro l
    induction l with
    | nil => exact fun a => ⟨a, rfl⟩
    | cons w t ih =>
        intro a
        rw [List.foldl_cons]
        dsimp only
        by_cases hle : ovalLeB a.2 w.2
        · rw [if_pos hle]; exact ih a
        · rw [if_neg hle]; exact ih w
  exact key t v

/-- The top-N selection returns keys of the list, without duplicates (for a
duplicate-free key list). -/
theorem selectTopN_props : ∀ (n : ℕ) (vs : List (String × Option ℚ)),
    (vs.map Prod.fst).Nodup →
    (∀ x ∈ selectTopN n vs, x ∈ vs.map Prod.fst) ∧ (selectTopN n vs).Nodup := by
  intro n
  induction n with
  | zero =>
      intro vs _
      rw [selectTopN]
      exact ⟨by simp, List.nodup_nil⟩
  | succ n ih =>
      intro vs hnd
      rw [selectTopN]
      cases hf : findMinFirst vs with
      | none => exact ⟨by simp, List.nodup_nil⟩
      | some b =>
          have hbmem : b ∈ vs := findMinFirst_mem hf
          have hsub' : (vs.eraseP (fun v => v.1 == b.1)).Sublist vs :=
            List.eraseP_sublist vs
          have hnd' : ((vs.eraseP (fun v => v.1 == b.1)).map Prod.fst).Nodup :=
            List.Nodup.sublist (hsub'.map Prod.fst) hnd
          obtain ⟨ihs, ihn⟩ := ih _ hnd'
          have hkey : b.1 ∉ (vs.eraseP (fun v => v.1 == b.1)).map Prod.fst := by
            obtain ⟨a, l1, l2, hl1, hpa, hdecomp, herase⟩ :=
              @List.exists_of_eraseP _ (fun v => v.1 == b.1) vs b hbmem
                (beq_self_eq_true b.1)
            rw [herase]
            have ha1 : a.1 = b.1 := by simpa using hpa
            rw [hdecomp, List.map_append, List.map_cons] at hnd
            have h2 := List.nodup_middle.mp hnd
            have h3 := (List.nodup_cons.mp h2).1
            rw [List.map_append, ← ha1]
            simpa using h3
          constructor
          · intro x hx
            rcases List.mem_cons.mp hx with rfl | hx
            · exact List.mem_map_of_mem Prod.fst hbmem
            · exact (hsub'.map Prod.fst).subset (ihs x hx)
          · exact List.nodup_cons.mpr ⟨fun hmem => hkey (ihs _ hmem), ihn⟩

/-- A positive selection budget on a non-empty metric dict selects at least
one model. -/
theorem selectTopN_ne_nil {n : ℕ} {vs : List (String × Option ℚ)}
    (hn : n ≠ 0) (hvs : vs ≠ []) : selectTopN n vs ≠ [] := by
  cases n with
  | zero => exact absurd rfl hn
  | succ n =>
      rw [selectTopN]
      obtain ⟨b, hb⟩ := findMinFirst_isSome hvs
      rw [hb]
      simp

/-- Summing an indicator-set membership weight over a duplicate-free list
counts the subset once. -/
theorem sum_ite_mem : ∀ (names top : List String) (c : ℚ), names.Nodup →
    top.Nodup → (∀ x ∈ top, x ∈ names) →
    (names.map (fun n => if n ∈ top then c else 0)).sum =
      (top.length : ℚ) * c := by
  intro names
  induction names with
  | nil =>
      intro top c _ _ hsub
      cases top with
      | nil => simp
      | cons t ts => exact absurd (hsub t (List.mem_cons_self t ts)) (by simp)
  | cons a ns ih =>
      intro top c hnd htopnd hsub
      have hans : a ∉ ns := (List.nodup_cons.mp hnd).1
      have hnd' : ns.Nodup := (List.nodup_cons.mp hnd).2
      rw [List.map_cons, List.sum_cons]
      by_cases ha : a ∈ top
      · rw [if_pos ha]
        have hrw : ns.map (fun n => if n ∈ top then c else 0) =
            ns.map (fun n => if n ∈ top.erase a then c else 0) := by
          apply List.map_congr_left
          intro n hn
          have hna : n ≠ a := fun h => hans (h ▸ hn)
          by_cases hnt : n ∈ top
          · rw [if_pos hnt, if_pos ((List.mem_erase_of_ne hna).mpr hnt)]
          · rw [if_neg hnt, if_neg (fun hc => hnt (List.mem_of_mem_erase hc))]
        have hsubarg : ∀ x ∈ top.erase a, x ∈ ns := by
          intro x hx
          have hxt := List.mem_of_mem_erase hx
          have hxa : x ≠ a := by
            intro h
            subst h
            exact (List.Nodup.not_mem_erase htopnd) hx
          rcases List.mem_cons.mp (hsub x hxt) with h | h
          · exact absurd h hxa
          · exact h
        rw [hrw, ih (top.erase a) c hnd' (htopnd.erase a) hsubarg]
        have hpos : 1 ≤ top.length :=
          List.length_pos.mpr (List.ne_nil_of_mem ha)
        rw [List.length_erase_of_mem ha]
        have hc : ((top.length - 1 : ℕ) : ℚ) = (top.length : ℚ) - 1 := by
          push_cast [Nat.cast_sub hpos]
          ring
        rw [hc]
        ring
      · rw [if_neg ha, zero_add]
        apply ih top c hnd' htopnd
        intro x hx
        rcases List.mem_cons.mp (hsub x hx) with h | h
        · exact absurd (h ▸ hx) ha
        · exact h

/-- `combine_thick_modeling` on a non-empty duplicate-free indicator column:
non-negative weights summing to 1, for every possible history. -/
theorem combineThickModeling_props (names : List String)
    (hist : String → Option HMetrics) (nModels : ℕ)
    (hne : names ≠ []) (hnd : names.Nodup) :
    (∀ p ∈ combineThickModeling names hist nModels, 0 ≤ p.2)
    ∧ ((combineThickModeling names hist nModels).map Prod.snd).sum = 1 := by
  have hlen : names.length ≠ 0 := fun h => hne (List.length_eq_zero.mp h)
  unfold combineThickModeling
  rw [if_neg (by simp [hne])]
  dsimp only
  set rv := (dedupFirst names).filterMap
    (fun n => (hist n).map (fun h => (n, h.rmse))) with hrv
  by_cases hrve : rv.isEmpty
  · rw [if_pos hrve]
    exact equalWeightsPos_props hlen
  · rw [if_neg hrve]
    by_cases htope : (selectTopN nModels rv).isEmpty
    · rw [if_pos htope]
      exact equalWeightsPos_props hlen
    · rw [if_neg htope]
      have htopne : selectTopN nModels rv ≠ [] :=
        fun hc => by rw [hc] at htope; simp at htope
      have hrvnd : (rv.map Prod.fst).Nodup := by
        rw [hrv]
        exact List.Nodup.sublist
          (filterMap_keys_sublist (dedupFirst names) hist _)
          (dedupFirst_nodup names)
      obtain ⟨hsubkeys, htopnd⟩ := selectTopN_props nModels rv hrvnd
      have hsub : ∀ x ∈ selectTopN nModels rv, x ∈ names := by
        intro x hx
        have h1 := hsubkeys x hx
        rw [hrv] at h1
        exact mem_dedupFirst.mp
          ((filterMap_keys_sublist (dedupFirst names) hist _).subset h1)
      constructor
      · intro p hp
        obtain ⟨n, hn, rfl⟩ := List.mem_map.mp hp
        show (0:ℚ) ≤ if n ∈ selectTopN nModels rv then
          1 / ((selectTopN nModels rv).length : ℚ) else 0
        split
        · positivity
        · exact le_refl 0
      · rw [List.map_map]
        have he : (Prod.snd ∘ fun n => ((SIdx.str n),
            if n ∈ selectTopN nModels rv then
              1 / (((selectTopN nModels rv).length : ℕ) : ℚ) else 0)) =
            fun n => if n ∈ selectTopN nModels rv then
              1 / (((selectTopN nModels rv).length : ℕ) : ℚ) else 0 := rfl
        rw [he, sum_ite_mem names (selectTopN nModels rv) _ hnd htopnd hsub]
        have hl : (selectTopN nModels rv).length ≠ 0 :=
          fun h => htopne (List.length_eq_zero.mp h)
        have hlq : (((selectTopN nModels rv).length : ℕ) : ℚ) ≠ 0 := by
          exact_mod_cast hl
        rw [mul_one_div, div_self hlq]

/-- Normalizing a keyed list of non-negative weights by its (non-zero) value
sum gives non-negative values summing to 1. -/
theorem normalize_keyed_nonneg_props {α β : Type} (ws : List (α × ℚ))
    (f : α → β) (hnn : ∀ p ∈ ws, 0 ≤ p.2)
    (hs : (ws.map Prod.snd).sum ≠ 0) :
    (∀ p ∈ ws.map (fun v => (f v.1, v.2 / (ws.map Prod.snd).sum)), 0 ≤ p.2)
    ∧ ((ws.map (fun v => (f v.1, v.2 / (ws.map Prod.snd).sum))).map
        Prod.snd).sum = 1 := by
  have hsnn : 0 ≤ (ws.map Prod.snd).sum := by
    apply List.sum_nonneg
    intro x hx
    obtain ⟨p, hp, rfl⟩ := List.mem_map.mp hx
    exact hnn p hp
  have hspos : 0 < (ws.map Prod.snd).sum := lt_of_le_of_ne hsnn (Ne.symm hs)
  refine ⟨?_, ?_⟩
  · intro p hp
    obtain ⟨v, hv, rfl⟩ := List.mem_map.mp hp
    exact div_nonneg (hnn v hv) (le_of_lt hspos)
  · rw [List.map_map]
    have he : (Prod.snd ∘ fun v : α × ℚ =>
        (f v.1, v.2 / (ws.map Prod.snd).sum)) =
        fun v : α × ℚ => v.2 / (ws.map Prod.snd).sum := rfl
    rw [he]
    have he2 : (ws.map fun v : α × ℚ => v.2 / (ws.map Prod.snd).sum) =
        ((ws.map Prod.snd).map (fun x => x / (ws.map Prod.snd).sum)) := by
      rw [List.map_map]
      rfl
    rw [he2, sum_map_div, div_self hs]

/-- A value found by `lookup` is one of the stored values. -/
theorem lookup_mem_values {β : Type} :
    ∀ (l : List (String × β)) (a : String) (v : β),
      l.lookup a = some v → v ∈ l.map Prod.snd := by
  intro l
  induction l with
  | nil => intro a v h; simp [List.lookup] at h
  | cons e t ih =>
      obtain ⟨k, b⟩ := e
      intro a v h
      by_cases hak : a = k
      · subst hak
        rw [lookup_cons_self] at h
        rw [List.map_cons]
        exact List.mem_cons.mpr (Or.inl (Option.some.inj h).symm)
      · rw [lookup_cons_of_ne _ _ _ _ hak] at h
        exact List.mem_cons_of_mem _ (ih a v h)

/-- The label-scatter step of `combine_regression_based`: weights looked up
from non-negative regression values (0 for absent labels) are non-negative,
as is their sum. -/
theorem scatter_nonneg (names valid : List String) (fvals : List ℚ)
    (hfv : ∀ x ∈ fvals, 0 ≤ x) :
    (∀ p ∈ names.map (fun n => (n, ((valid.zip fvals).lookup n).getD 0)),
      0 ≤ p.2)
    ∧ 0 ≤ ((names.map
        (fun n => (n, ((valid.zip fvals).lookup n).getD 0))).map
          Prod.snd).sum := by
  have hnn : ∀ p ∈ names.map
      (fun n => (n, ((valid.zip fvals).lookup n).getD 0)), 0 ≤ p.2 := by
    intro p hp
    obtain ⟨n, hn, rfl⟩ := List.mem_map.mp hp
    show (0:ℚ) ≤ ((valid.zip fvals).lookup n).getD 0
    cases hl : (valid.zip fvals).lookup n with
    | none => exact le_refl 0
    | some v =>
        have hv := lookup_mem_values _ _ _ hl
        obtain ⟨q, hq, rfl⟩ := List.mem_map.mp hv
        exact hfv _ (List.of_mem_zip hq).2
  refine ⟨hnn, List.sum_nonneg ?_⟩
  intro x hx
  obtain ⟨p, hp, rfl⟩ := List.mem_map.mp hx
  exact hnn p hp

/-- `combine_regression_based` on a non-empty duplicate-free indicator
column: non-negative weights summing to 1, for every possible history and
every possible output (or failure) of the external ridge solver. -/
theorem combineRegressionBased_props (names : List String)
    (hist : String → Option HMetrics) (window : ℕ)
    (ridge : List (List ℚ) → List ℚ → Option (List ℚ))
    (hne : names ≠ []) :
    (∀ p ∈ combineRegressionBased names hist window ridge, 0 ≤ p.2)
    ∧ ((combineRegressionBased names hist window ridge).map Prod.snd).sum
        = 1 := by
  have hlen : names.length ≠ 0 := fun h => hne (List.length_eq_zero.mp h)
  have hlq : ((names.length : ℕ) : ℚ) ≠ 0 := by exact_mod_cast hlen
  have hfb : (∀ p ∈ names.map
        (fun n => (SIdx.str n, 1 / ((names.length : ℕ) : ℚ))), 0 ≤ p.2)
      ∧ ((names.map (fun n =>
          (SIdx.str n, 1 / ((names.length : ℕ) : ℚ)))).map Prod.snd).sum
        = 1 := by
    constructor
    · intro p hp
      obtain ⟨n, hn, rfl⟩ := List.mem_map.mp hp
      show (0:ℚ) ≤ 1 / ((names.length : ℕ) : ℚ)
      positivity
    · rw [List.map_map]
      have he : (Prod.snd ∘ fun n : String =>
          ((SIdx.str n), 1 / ((names.length : ℕ) : ℚ))) =
          fun _ : String => 1 / ((names.length : ℕ) : ℚ) := rfl
      rw [he, sum_const_map, mul_one_div, div_self hlq]
  unfold combineRegressionBased
  dsimp only
  rw [if_neg (by simp [hne])]
  set valid := names.filterMap (fun n => (hist n).bind (fun h =>
    if window ≤ h.forecasts.length ∧ window ≤ h.actuals.length then some (n, h)
    else none)) with hvalid
  by_cases h1 : ((valid.map (fun v => lastWindow window v.2.forecasts)).isEmpty)
  · rw [if_pos h1]
    exact hfb
  · rw [if_neg h1]
    have hvne : valid ≠ [] := by
      intro hc
      rw [hc] at h1
      simp at h1
    obtain ⟨v0, vrest, hv0⟩ := List.exists_cons_of_ne_nil hvne
    rw [hv0]
    dsimp only
    by_cases h2 : (lastWindow window v0.2.actuals).isEmpty
    · rw [if_pos h2]
      exact hfb
    · rw [if_neg h2]
      by_cases h3 : ((v0 :: vrest).map
            (fun v => lastWindow window v.2.forecasts)).all
          (fun c => c.length == (lastWindow window v0.2.actuals).length)
      · rw [if_pos h3]
        cases hr : ridge ((v0 :: vrest).map
            (fun v => lastWindow window v.2.forecasts))
            (lastWindow window v0.2.actuals) with
        | none => exact hfb
        | some coefs =>
            dsimp only
            set FV := (if (coefs.map (fun c => max c 0)).sum > 0 then
                (coefs.map (fun c => max c 0)).map
                  (fun c => c / (coefs.map (fun c => max c 0)).sum)
                else (coefs.map (fun c => max c 0)).map
                  (fun _ => 1 / (((coefs.map (fun c => max c 0)).length : ℕ) :
                    ℚ))) with hFV
            have hfvnn : ∀ x ∈ FV, 0 ≤ x := by
              intro x hx
              rw [hFV] at hx
              split at hx
              · obtain ⟨c, hc, rfl⟩ := List.mem_map.mp hx
                obtain ⟨c', _, rfl⟩ := List.mem_map.mp hc
                have hmax : (0:ℚ) ≤ max c' 0 := le_max_right c' 0
                refine div_nonneg hmax ?_
                linarith
              · obtain ⟨c, hc, rfl⟩ := List.mem_map.mp hx
                positivity
            set final := names.map (fun n =>
              (n, ((((v0 :: vrest).map Prod.fst).zip FV).lookup n).getD 0))
              with hfinal
            obtain ⟨hsc1, _⟩ :=
              scatter_nonneg names ((v0 :: vrest).map Prod.fst) FV hfvnn
            rw [← hfinal] at hsc1
            by_cases h4 : (final.map Prod.snd).sum = 0
            · rw [if_pos h4]
              exact hfb
            · rw [if_neg h4]
              exact normalize_keyed_nonneg_props final SIdx.str hsc1 h4
      · rw [if_neg h3]
        exact hfb

/-- C1 amended (claim theorem): for the RMSE-based, rank-based, adaptive,
thick-modeling and regression-based strategies — with a non-empty indicator
column, every present history yielding positive finite (windowed) RMSEs and
non-negative directional accuracies where those metrics are consulted, and
duplicate-free indicators for thick modeling — and for the criterion-based
strategy when all criterion values are finite and positive, the returned
weights are non-negative and sum to exactly 1.  On an empty indicator column
the RMSE-based, rank-based, thick-modeling and regression-based strategies
return an empty weighting, while the criterion-based strategy raises
`ZeroDivisionError` and the adaptive strategy returns a single unit weight at
positional index 0. -/
theorem c1_combination_weight_properties :
    (∀ rows : List (String × Option ℚ), rows ≠ [] →
      (∀ r ∈ rows, ∃ b, r.2 = some b ∧ 0 < b) →
      ∃ ws, combineBic rows = Except.ok ws ∧ (∀ p ∈ ws, 0 ≤ p.2) ∧
        (ws.map Prod.snd).sum = 1)
    ∧ (∀ (names : List String) (hist : String → Option HMetrics),
        names ≠ [] →
        (∀ n h, hist n = some h → ∃ q, h.rmseW = some q ∧ 0 < q) →
        (∀ p ∈ combineRmse names hist, 0 ≤ p.2) ∧
          ((combineRmse names hist).map Prod.snd).sum = 1)
    ∧ (∀ (names : List String) (hist : String → Option HMetrics),
        names ≠ [] →
        (∀ p ∈ combinePerformanceRank names hist, 0 ≤ p.2) ∧
          ((combinePerformanceRank names hist).map Prod.snd).sum = 1)
    ∧ (∀ (names : List String) (hist : String → Option HMetrics) (window : ℕ),
        names ≠ [] →
        (∀ n h, hist n = some h → ∃ q, h.rmseW = some q ∧ 0 < q) →
        (∀ n h, hist n = some h → 0 ≤ h.dirAccW) →
        (∀ p ∈ combineAdaptive names hist window, 0 ≤ p.2) ∧
          ((combineAdaptive names hist window).map Prod.snd).sum = 1)
    ∧ (∀ (names : List String) (hist : String → Option HMetrics) (k : ℕ),
        names ≠ [] → names.Nodup →
        (∀ p ∈ combineThickModeling names hist k, 0 ≤ p.2) ∧
          ((combineThickModeling names hist k).map Prod.snd).sum = 1)
    ∧ (∀ (names : List String) (hist : String → Option HMetrics) (window : ℕ)
        (ridge : List (List ℚ) → List ℚ → Option (List ℚ)), names ≠ [] →
        (∀ p ∈ combineRegressionBased names hist window ridge, 0 ≤ p.2) ∧
          ((combineRegressionBased names hist window ridge).map
            Prod.snd).sum = 1)
    ∧ combineBic [] = Except.error "ZeroDivisionError: division by zero"
    ∧ (∀ hist, combineRmse [] hist = [])
    ∧ (∀ hist, combinePerformanceRank [] hist = [])
    ∧ (∀ hist w, combineAdaptive [] hist w = [(SIdx.num 0, 1)])
    ∧ (∀ hist k, combineThickModeling [] hist k = [])
    ∧ (∀ hist w r, combineRegressionBased [] hist w r = []) := by
  refine ⟨combineBic_props, combineRmse_props, combinePerformanceRank_props,
    combineAdaptive_props, combineThickModeling_props,
    combineRegressionBased_props, rfl, fun _ => rfl, fun _ => rfl,
    fun _ _ => rfl, fun _ _ => rfl, fun _ _ _ => rfl⟩

/-- Witness for `c1_combination_weight_properties`: each hypothesized
conjunct instantiated at a concrete two-indicator round with a concrete
history oracle (windowed RMSE 2, directional accuracy 1/2, four actuals,
eight forecasts) and, for the regression strategy, a concrete ridge output
with one negative coefficient. -/
theorem c1_combination_weight_properties_witness :
    (∃ ws, combineBic [("A", some 10), ("B", some 40)] = Except.ok ws ∧
      (∀ p ∈ ws, 0 ≤ p.2) ∧ (ws.map Prod.snd).sum = 1)
    ∧ ((∀ p ∈ combineRmse ["EAI", "PMI_M"]
          (fun _ => some ⟨some 1, some 1, 1/2, some 2, 1/2,
            [1, 2, 3, 4], [1, 2, 3, 4, 5, 6, 7, 8]⟩), 0 ≤ p.2) ∧
        ((combineRmse ["EAI", "PMI_M"]
          (fun _ => some ⟨some 1, some 1, 1/2, some 2, 1/2,
            [1, 2, 3, 4], [1, 2, 3, 4, 5, 6, 7, 8]⟩)).map Prod.snd).sum = 1)
    ∧ ((∀ p ∈ combinePerformanceRank ["EAI", "PMI_M"]
          (fun _ => some ⟨some 1, some 1, 1/2, some 2, 1/2,
            [1, 2, 3, 4], [1, 2, 3, 4, 5, 6, 7, 8]⟩), 0 ≤ p.2) ∧
        ((combinePerformanceRank ["EAI", "PMI_M"]
          (fun _ => some ⟨some 1, some 1, 1/2, some 2, 1/2,
            [1, 2, 3, 4], [1, 2, 3, 4, 5, 6, 7, 8]⟩)).map Prod.snd).sum = 1)
    ∧ ((∀ p ∈ combineAdaptive ["EAI", "PMI_M"]
          (fun _ => some ⟨some 1, some 1, 1/2, some 2, 1/2,
            [1, 2, 3, 4], [1, 2, 3, 4, 5, 6, 7, 8]⟩) 4, 0 ≤ p.2) ∧
        ((combineAdaptive ["EAI", "PMI_M"]
          (fun _ => some ⟨some 1, some 1, 1/2, some 2, 1/2,
            [1, 2, 3, 4], [1, 2, 3, 4, 5, 6, 7, 8]⟩) 4).map Prod.snd).sum = 1)
    ∧ ((∀ p ∈ combineThickModeling ["EAI", "PMI_M"]
          (fun _ => some ⟨some 1, some 1, 1/2, some 2, 1/2,
            [1, 2, 3, 4], [1, 2, 3, 4, 5, 6, 7, 8]⟩) 5, 0 ≤ p.2) ∧
        ((combineThickModeling ["EAI", "PMI_M"]
          (fun _ => some ⟨some 1, some 1, 1/2, some 2, 1/2,
            [1, 2, 3, 4], [1, 2, 3, 4, 5, 6, 7, 8]⟩) 5).map Prod.snd).sum = 1)
    ∧ ((∀ p ∈ combineRegressionBased ["EAI", "PMI_M"]
          (fun _ => some ⟨some 1, some 1, 1/2, some 2, 1/2,
            [1, 2, 3, 4], [1, 2, 3, 4, 5, 6, 7, 8]⟩) 2
          (fun _ _ => some [1, -1]), 0 ≤ p.2) ∧
        ((combineRegressionBased ["EAI", "PMI_M"]
          (fun _ => some ⟨some 1, some 1, 1/2, some 2, 1/2,
            [1, 2, 3, 4], [1, 2, 3, 4, 5, 6, 7, 8]⟩) 2
          (fun _ _ => some [1, -1])).map Prod.snd).sum = 1) := by
  have hposq : ∀ (n : String) (h : HMetrics),
      (fun _ : String => some (⟨some 1, some 1, 1/2, some 2, 1/2,
        [1, 2, 3, 4], [1, 2, 3, 4, 5, 6, 7, 8]⟩ : HMetrics)) n = some h →
      ∃ q, h.rmseW = some q ∧ 0 < q := by
    intro n h hh
    have := Option.some.inj hh
    rw [← this]
    exact ⟨2, rfl, by norm_num⟩
  have hdirq : ∀ (n : String) (h : HMetrics),
      (fun _ : String => some (⟨some 1, some 1, 1/2, some 2, 1/2,
        [1, 2, 3, 4], [1, 2, 3, 4, 5, 6, 7, 8]⟩ : HMetrics)) n = some h →
      0 ≤ h.dirAccW := by
    intro n h hh
    have := Option.some.inj hh
    rw [← this]
    norm_num
  refine ⟨?_, ?_, ?_, ?_, ?_, ?_⟩
  · refine c1_combination_weight_properties.1 _ (by simp) ?_
    intro r hr
    rcases List.mem_cons.mp hr with rfl | hr
    · exact ⟨10, rfl, by norm_num⟩
    · rcases List.mem_cons.mp hr with rfl | hr
      · exact ⟨40, rfl, by norm_num⟩
      · exact absurd hr (by simp)
  · exact c1_combination_weight_properties.2.1 _ _ (by simp) hposq
  · exact c1_combination_weight_properties.2.2.1 _ _ (by simp)
  · exact c1_combination_weight_properties.2.2.2.1 _ _ 4 (by simp) hposq hdirq
  · exact c1_combination_weight_properties.2.2.2.2.1 _ _ 5 (by simp) (by decide)
  · exact c1_combination_weight_properties.2.2.2.2.2.1 _ _ 2 _ (by simp)

/-! ### Theorems: UMIDAS grid search (C4) and predict (C5) -/

/-- Invariant analysis of the `best_bic_local` fold: the fold returns `none`
only from an empty input, and a returned incumbent carries its own score,
belongs to the accumulator-or-list, and is minimal. -/
theorem selectBest_fold_spec :
    ∀ (t : List ((ℕ × ℕ) × EstResult))
      (acc : Option (ℝ × (ℕ × ℕ) × EstResult)),
      (∀ b, acc = some b → b.1 = bicScore b.2.2) →
      ((t.foldl bestStep acc = none) ↔ (acc = none ∧ t = []))
      ∧ (∀ b, t.foldl bestStep acc = some b →
          (acc = some b ∨ b.2 ∈ t) ∧ b.1 = bicScore b.2.2 ∧
          (∀ c ∈ t, b.1 ≤ bicScore c.2) ∧
          (∀ a, acc = some a → b.1 ≤ a.1)) := by
  intro t
  induction t with
  | nil =>
      intro acc hinv
      simp only [List.foldl_nil]
      refine ⟨by simp, ?_⟩
      intro b hb
      refine ⟨Or.inl hb, hinv b hb, by simp, ?_⟩
      intro a ha
      rw [hb] at ha
      rw [Option.some.inj ha]
  | cons c t ih =>
      intro acc hinv
      have hstep_none : acc = none → bestStep acc c = some (bicScore c.2, c) := by
        intro h
        rw [h]
        rfl
      have hstep_some : ∀ a, acc = some a →
          (bestStep acc c = some (bicScore c.2, c) ∧ bicScore c.2 < a.1) ∨
          (bestStep acc c = some a ∧ a.1 ≤ bicScore c.2) := by
        intro a ha
        rw [ha, bestStep]
        by_cases hlt : bicScore c.2 < a.1
        · exact Or.inl ⟨by rw [if_pos hlt], hlt⟩
        · exact Or.inr ⟨by rw [if_neg hlt], le_of_not_lt hlt⟩
      have hinv' : ∀ b, bestStep acc c = some b → b.1 = bicScore b.2.2 := by
        intro b hb
        cases hacc : acc with
        | none =>
            rw [hstep_none hacc] at hb
            rw [← Option.some.inj hb]
        | some a =>
            rcases hstep_some a hacc with ⟨he, -⟩ | ⟨he, -⟩
            · rw [he] at hb
              rw [← Option.some.inj hb]
            · rw [he] at hb
              rw [← Option.some.inj hb]
              exact hinv a hacc
      obtain ⟨ih1, ih2⟩ := ih (bestStep acc c) hinv'
      have hstepsome : ∃ a', bestStep acc c = some a' := by
        cases hacc : acc with
        | none => exact ⟨_, hacc ▸ hstep_none hacc⟩
        | some a =>
            rcases hstep_some a hacc with ⟨he, -⟩ | ⟨he, -⟩
            · exact ⟨_, hacc ▸ he⟩
            · exact ⟨_, hacc ▸ he⟩
      constructor
      · rw [List.foldl_cons, ih1]
        constructor
        · rintro ⟨h1, -⟩
          obtain ⟨a', ha'⟩ := hstepsome
          rw [ha'] at h1
          exact absurd h1 (by simp)
        · rintro ⟨-, h2⟩
          exact absurd h2 (by simp)
      · intro b hb
        rw [List.foldl_cons] at hb
        obtain ⟨hmem', hbic, hmin', hacc'⟩ := ih2 b hb
        have hheadle : b.1 ≤ bicScore c.2 := by
          cases hacc : acc with
          | none => exact hacc' (bicScore c.2, c) (hstep_none hacc)
          | some a =>
              rcases hstep_some a hacc with ⟨he, hlt⟩ | ⟨he, hle⟩
              · exact hacc' (bicScore c.2, c) he
              · exact le_trans (hacc' a he) hle
        have hmem : acc = some b ∨ b.2 ∈ c :: t := by
          rcases hmem' with hm | hm
          · cases hacc : acc with
            | none =>
                right
                rw [hstep_none hacc] at hm
                have hbe : (bicScore c.2, c) = b := Option.some.inj hm
                rw [← hbe]
                exact List.mem_cons_self c t
            | some a =>
                rcases hstep_some a hacc with ⟨he, -⟩ | ⟨he, -⟩
                · right
                  rw [he] at hm
                  have hbe : (bicScore c.2, c) = b := Option.some.inj hm
                  rw [← hbe]
                  exact List.mem_cons_self c t
                · left
                  rw [he] at hm
                  exact hm
          · exact Or.inr (List.mem_cons_of_mem c hm)
        have hmin : ∀ c' ∈ c :: t, b.1 ≤ bicScore c'.2 := by
          intro c' hc'
          rcases List.mem_cons.mp hc' with rfl | hc'
          · exact hheadle
          · exact hmin' c' hc'
        have haccle : ∀ a, acc = some a → b.1 ≤ a.1 := by
          intro a hacc
          rcases hstep_some a hacc with ⟨he, hlt⟩ | ⟨he, -⟩
          · exact le_trans hheadle (le_of_lt hlt)
          · exact hacc' a he
        exact ⟨hmem, hbic, hmin, haccle⟩

/-- The retained combination of the grid-search fold: `none` only on an
empty success list; otherwise a member of the list with its own score,
minimal among all scores. -/
theorem selectBest_spec (l : List ((ℕ × ℕ) × EstResult)) :
    (selectBest l = none ↔ l = [])
    ∧ ∀ b, selectBest l = some b →
        b.2 ∈ l ∧ b.1 = bicScore b.2.2 ∧ ∀ c ∈ l, b.1 ≤ bicScore c.2 := by
  obtain ⟨h1, h2⟩ := selectBest_fold_spec l none (by intro b hb; simp at hb)
  constructor
  · rw [selectBest, h1]
    simp
  · intro b hb
    rw [selectBest] at hb
    obtain ⟨hm, hbic, hmin, -⟩ := h2 b hb
    rcases hm with hm | hm
    · exact absurd hm (by simp)
    · exact ⟨hm, hbic, hmin⟩

/-- C4: the fit grid-search scores every successfully estimated
`(y_lag, x_lag)` combination (with `y_lag ≤ max_y_lags`,
`x_lag ≤ max_x_lags`) by `n·ln(SSR/n) + k·ln(n)` with the SSR floored at
1e-9, retains a combination with the lowest score, skips failed combinations
without aborting, and — when every combination fails — returns with no model
and an infinite criterion rather than raising. -/
theorem c4_fit_grid_search (oracle : ℕ → ℕ → Option EstResult)
    (maxY maxX : ℕ) :
    ((umidasFit oracle maxY maxX).model_ = none ↔
      scoredCombos oracle maxY maxX = [])
    ∧ ((umidasFit oracle maxY maxX).bic_ = none ↔
      scoredCombos oracle maxY maxX = [])
    ∧ (∀ c, (umidasFit oracle maxY maxX).model_ = some c →
        c ∈ scoredCombos oracle maxY maxX ∧
        (umidasFit oracle maxY maxX).bic_ = some (bicScore c.2) ∧
        ∀ c' ∈ scoredCombos oracle maxY maxX,
          bicScore c.2 ≤ bicScore c'.2) := by
  obtain ⟨h1, h2⟩ := selectBest_spec (scoredCombos oracle maxY maxX)
  unfold umidasFit
  cases hsel : selectBest (scoredCombos oracle maxY maxX) with
  | none =>
      refine ⟨by simpa using h1.mp hsel, by simpa using h1.mp hsel, ?_⟩
      intro c hc
      simp at hc
  | some b =>
      obtain ⟨hmem, hbic, hmin⟩ := h2 b hsel
      have hne : scoredCombos oracle maxY maxX ≠ [] :=
        fun hc => by rw [hc] at hmem; simp at hmem
      refine ⟨iff_of_false (by simp) hne, iff_of_false (by simp) hne, ?_⟩
      intro c hc
      have hcb : b.2 = c := by simpa using hc
      subst hcb
      refine ⟨hmem, ?_, ?_⟩
      · show (some b.1 : Option ℝ) = some (bicScore b.2.2)
        rw [hbic]
      · intro p hp
        rw [← hbic]
        exact hmin p hp

/-- Witness for `c4_fit_grid_search`: a 1×1 grid whose single combination
estimates with residuals `[1, 1]` and two parameters — the fit retains it,
stores its score, and it is (trivially) minimal. -/
theorem c4_fit_grid_search_witness :
    ((0, 0), (⟨[1, 1], 2, some [3]⟩ : EstResult)) ∈
        scoredCombos (fun y x =>
          if y = 0 ∧ x = 0 then some ⟨[1, 1], 2, some [3]⟩ else none) 0 0
    ∧ (umidasFit (fun y x =>
          if y = 0 ∧ x = 0 then some ⟨[1, 1], 2, some [3]⟩ else none)
        0 0).bic_ =
        some (bicScore (⟨[1, 1], 2, some [3]⟩ : EstResult))
    ∧ ∀ c' ∈ scoredCombos (fun y x =>
          if y = 0 ∧ x = 0 then some ⟨[1, 1], 2, some [3]⟩ else none) 0 0,
        bicScore (⟨[1, 1], 2, some [3]⟩ : EstResult) ≤ bicScore c'.2 := by
  have hm : (umidasFit (fun y x =>
      if y = 0 ∧ x = 0 then some ⟨[1, 1], 2, some [3]⟩ else none)
        0 0).model_ =
      some ((0, 0), (⟨[1, 1], 2, some [3]⟩ : EstResult)) := by
    rw [umidasFit]
    have hscored : scoredCombos (fun y x =>
        if y = 0 ∧ x = 0 then some ⟨[1, 1], 2, some [3]⟩ else none) 0 0 =
        [((0, 0), ⟨[1, 1], 2, some [3]⟩)] := by
      rw [scoredCombos, lagGrid]
      simp [List.range_succ]
    rw [hscored, selectBest]
    rfl
  exact (c4_fit_grid_search _ 0 0).2.2 _ hm

/-- C5 counterexample: for a fixed fitted model (stored forecast path `[5]`)
the prediction is identical on two input series whose recent observed values
differ entirely — `predict` computes the recent-observations slice but never
uses it, so the input values play no role in the nowcast. -/
theorem c5_predict_ignores_input_counterexample :
    umidasPredict (some ((0, 0), ⟨[1, 1], 2, some [5]⟩)) [1, 2, 3] 0 =
      Except.ok [some 5]
    ∧ umidasPredict (some ((0, 0), ⟨[1, 1], 2, some [5]⟩)) [9, 9, 9] 0 =
      Except.ok [some 5] :=
  ⟨rfl, rfl⟩

/-- C5 amended: for a fitted model and `month_in_quarter ≤ 2`, `predict` is
independent of the values of the (non-empty) input series — the slice of the
most recent `month_in_quarter + 1` observations is dead code — and the
returned nowcast is the last element of the forecast path stored at fit
time. -/
theorem c5_predict_from_fit_state
    (model_ : Option ((ℕ × ℕ) × EstResult)) (xs ys : List ℚ) (miq : ℕ)
    (hxs : xs ≠ []) (hys : ys ≠ []) :
    umidasPredict model_ xs miq = umidasPredict model_ ys miq
    ∧ (∀ m ps v, model_ = some m → m.2.predictOutput = some ps →
        ps.getLast? = some v → miq ≤ 2 →
        umidasPredict model_ xs miq = Except.ok [some v]) := by
  constructor
  · cases model_ with
    | none => rfl
    | some m =>
        rw [umidasPredict, umidasPredict]
        by_cases hmq : miq > 2
        · rw [if_pos hmq, if_pos hmq]
        · rw [if_neg hmq, if_neg hmq,
            if_neg (by simp [hxs]), if_neg (by simp [hys])]
  · intro m ps v hm hps hv hmq
    subst hm
    rw [umidasPredict, if_neg (by omega), if_neg (by simp [hxs])]
    simp only [hps, hv]

/-- Witness for `c5_predict_from_fit_state`: a model with stored forecast
path `[4, 5]` predicts `5` in month 1, identically on the unrelated input
series `[7, 8]` and `[1, 2, 3]`. -/
theorem c5_predict_from_fit_state_witness :
    umidasPredict (some ((0, 0), ⟨[1, 1], 2, some [4, 5]⟩)) [7, 8] 1 =
        umidasPredict (some ((0, 0), ⟨[1, 1], 2, some [4, 5]⟩)) [1, 2, 3] 1
    ∧ umidasPredict (some ((0, 0), ⟨[1, 1], 2, some [4, 5]⟩)) [7, 8] 1 =
        Except.ok [some 5] := by
  have h := c5_predict_from_fit_state
    (some ((0, 0), ⟨[1, 1], 2, some [4, 5]⟩)) [7, 8] [1, 2, 3] 1
    (by simp) (by simp)
  exact ⟨h.1, h.2 _ [4, 5] 5 rfl rfl rfl (by norm_num)⟩

/-! ### Theorems: per-indicator failure handling in the workflow (C6) -/

/-- C6 counterexample: a round with indicator `EAI` (fitted, forecast 1,
criterion 10) and indicator `RETSALES` whose fit found no model.  `RETSALES`
is kept in the details with NaN forecast and infinite criterion and receives
the combination weight 1/12 — not zero — so the weighted nowcast is
1 · 11/12 = 11/12 instead of the 1.0 that dropping `RETSALES` from the
combination would give. -/
theorem c6_failed_fit_weight_counterexample :
    combineResults (collectResults
        [("EAI", FitOutcome.ok (some 1) 10), ("RETSALES", FitOutcome.noModel)]) =
      (some (11/12),
        [(("EAI", some 1, some 10), 11/12),
         (("RETSALES", none, none), 1/12)]) := by
  show combineResults [("EAI", some 1, some 10), ("RETSALES", none, none)] = _
  simp only [combineResults, List.filterMap_cons, List.max?_cons']
  norm_num

/-- C6 amended: in the per-indicator loop an indicator whose fit raises, or
whose forecast is NaN, is dropped; an indicator whose fit found no lag
combination is kept as a `(NaN, ∞)` row.  In the combination block (non-empty
results, at least one finite criterion, all finite criteria positive) every
row — including the no-model rows — receives a positive weight, and all
weights sum to 1; the weighted forecast itself sums only over rows with a
non-NaN forecast, so the weights actually applied to forecasts sum to less
than 1 whenever a no-model row is present.  No failure aborts the run (the
loop and the combination are total). -/
theorem c6_failed_fit_handling :
    (∀ (name : String) (rest : List (String × FitOutcome)),
      collectResults ((name, FitOutcome.raises) :: rest) = collectResults rest)
    ∧ (∀ name rest, collectResults ((name, FitOutcome.noModel) :: rest) =
        (name, none, none) :: collectResults rest)
    ∧ (∀ name b rest, collectResults ((name, FitOutcome.ok none b) :: rest) =
        collectResults rest)
    ∧ (∀ name f b rest,
        collectResults ((name, FitOutcome.ok (some f) b) :: rest) =
        (name, some f, some b) :: collectResults rest)
    ∧ (∀ results : List (String × Option ℚ × Option ℚ),
        results ≠ [] →
        (∃ r ∈ results, (r : String × Option ℚ × Option ℚ).2.2.isSome) →
        (∀ r b, r ∈ results →
          (r : String × Option ℚ × Option ℚ).2.2 = some b → 0 < b) →
        (∀ r ∈ results, ∃ w, (r, w) ∈ (combineResults results).2 ∧ 0 < w)
        ∧ ((combineResults results).2.map Prod.snd).sum = 1) := by
  refine ⟨fun _ _ => rfl, fun _ _ => rfl, fun _ _ _ => rfl, fun _ _ _ _ => rfl,
    ?_⟩
  intro results hne hsome hpos
  obtain ⟨r0, rrest, hr0⟩ := List.exists_cons_of_ne_nil hne
  have hfne : results.filterMap (fun r => r.2.2) ≠ [] := by
    obtain ⟨r, hr, hrs⟩ := hsome
    obtain ⟨b, hb⟩ := Option.isSome_iff_exists.mp hrs
    intro hc
    have : b ∈ results.filterMap (fun r => r.2.2) :=
      List.mem_filterMap.mpr ⟨r, hr, hb⟩
    rw [hc] at this
    simp at this
  cases hmax : (results.filterMap (fun r => r.2.2)).max? with
  | none => exact absurd (List.max?_eq_none_iff.mp hmax) hfne
  | some m =>
      have hmmem : m ∈ results.filterMap (fun r => r.2.2) :=
        List.max?_mem (fun a b => max_choice a b) hmax
      have hmpos : 0 < m := by
        obtain ⟨r, hr, hb⟩ := List.mem_filterMap.mp hmmem
        exact hpos r m hr hb
      have hfillpos : ∀ p ∈ results.map
          (fun r => (r, r.2.2.getD (m + 100))), 0 < p.2 := by
        intro p hp
        obtain ⟨r, hr, rfl⟩ := List.mem_map.mp hp
        show 0 < r.2.2.getD (m + 100)
        cases hb : r.2.2 with
        | none => simpa using by linarith
        | some b =>
            have := hpos r b hr hb
            simpa [hb] using this
      have hrewrite : combineResults results =
          (let filled := results.map (fun r => (r, r.2.2.getD (m + 100)))
           let weights :=
             if filled.all (fun p => p.2 == 0) then
               results.map (fun r => (r, 1 / ((results.length : ℕ) : ℚ)))
             else
               let inverse := filled.map (fun p => (p.1, 1 / p.2))
               let s := (inverse.map Prod.snd).sum
               if s = 0 then
                 results.map (fun r => (r, 1 / ((results.length : ℕ) : ℚ)))
               else inverse.map (fun p => (p.1, p.2 / s))
           let valid := weights.filter (fun p => p.1.2.1.isSome)
           let wf := if valid.isEmpty then none
             else some ((valid.map (fun p => p.1.2.1.getD 0 * p.2)).sum)
           (wf, weights)) := by
        rw [hr0, combineResults]
        rw [← hr0, hmax]
        simp
      have hallzero : ¬ (results.map
          (fun r => (r, r.2.2.getD (m + 100)))).all (fun p => p.2 == 0) = true := by
        intro hc
        have h1 : (r0, r0.2.2.getD (m + 100)) ∈ results.map
            (fun r => (r, r.2.2.getD (m + 100))) :=
          List.mem_map_of_mem _ (hr0 ▸ List.mem_cons_self r0 rrest)
        have h2 := List.all_eq_true.mp hc _ h1
        have h3 := hfillpos _ h1
        simp only [beq_iff_eq] at h2
        rw [h2] at h3
        exact lt_irrefl 0 h3
      have hinvpos : ∀ p ∈ (results.map
          (fun r => (r, r.2.2.getD (m + 100)))).map (fun p => (p.1, 1 / p.2)),
          0 < p.2 := by
        intro p hp
        obtain ⟨q, hq, rfl⟩ := List.mem_map.mp hp
        show 0 < 1 / q.2
        simpa using one_div_pos.mpr (hfillpos q hq)
      have hinvne : (results.map
          (fun r => (r, r.2.2.getD (m + 100)))).map (fun p => (p.1, 1 / p.2)) ≠
          [] := by
        rw [hr0]
        simp
      obtain ⟨hwnn, hwsum, hsne⟩ :=
        normalize_keyed_props _ (fun r : String × Option ℚ × Option ℚ => r)
          hinvpos hinvne
      rw [hrewrite]
      dsimp only
      rw [if_neg hallzero, if_neg hsne]
      constructor
      · intro r hr
        refine ⟨(1 / r.2.2.getD (m + 100)) /
          (((results.map (fun r => (r, r.2.2.getD (m + 100)))).map
            (fun p => (p.1, 1 / p.2))).map Prod.snd).sum, ?_, ?_⟩
        · have h1 : (r, r.2.2.getD (m + 100)) ∈ results.map
              (fun r => (r, r.2.2.getD (m + 100))) := List.mem_map_of_mem _ hr
          have h2 : (r, 1 / r.2.2.getD (m + 100)) ∈ (results.map
              (fun r => (r, r.2.2.getD (m + 100)))).map
                (fun p => (p.1, 1 / p.2)) :=
            List.mem_map_of_mem (fun p => (p.1, 1 / p.2)) h1
          exact List.mem_map_of_mem _ h2
        · have hspos : 0 < (((results.map
              (fun r => (r, r.2.2.getD (m + 100)))).map
                (fun p => (p.1, 1 / p.2))).map Prod.snd).sum := by
            apply List.sum_pos
            · intro x hx
              obtain ⟨p, hp, rfl⟩ := List.mem_map.mp hx
              exact hinvpos p hp
            · intro hc
              exact hinvne (by simpa using hc)
          have h1 : (r, r.2.2.getD (m + 100)) ∈ results.map
              (fun r => (r, r.2.2.getD (m + 100))) := List.mem_map_of_mem _ hr
          exact div_pos (by simpa using one_div_pos.mpr (hfillpos _ h1)) hspos
      · exact hwsum

/-- Witness for `c6_failed_fit_handling`: the combination over one fitted
row and one no-model row — every row (including the no-model one) receives a
positive weight, and the weights sum to 1. -/
theorem c6_failed_fit_handling_witness :
    (∀ r ∈ [(("EAI" : String), (some (1:ℚ), some (10:ℚ))),
        ("RETSALES", (none, none))],
      ∃ w, (r, w) ∈ (combineResults [("EAI", (some 1, some 10)),
        ("RETSALES", (none, none))]).2 ∧ 0 < w)
    ∧ ((combineResults [(("EAI" : String), (some (1:ℚ), some (10:ℚ))),
        ("RETSALES", (none, none))]).2.map Prod.snd).sum = 1 := by
  refine (c6_failed_fit_handling.2.2.2.2
    [("EAI", (some 1, some 10)), ("RETSALES", (none, none))]
    (by simp) ⟨("EAI", (some 1, some 10)), by simp, rfl⟩ ?_)
  intro r b hr hb
  rcases List.mem_cons.mp hr with rfl | hr
  · have hb10 : (10 : ℚ) = b := Option.some.inj hb
    rw [← hb10]
    norm_num
  · rcases List.mem_cons.mp hr with rfl | hr
    · exact absurd hb (by simp)
    · exact absurd hr (by simp)

end Midas
